import Mathlib

/-!
Verification of the TalentLMS/ADP integration core: a shallow embedding of
the record extractors, identifier resolver, hierarchy builder, tree renderer
and import routines, with theorems checking the natural-language
specification against the code.

Python values are embedded as the inductive `Val`; Python exceptions are
embedded as `Except PyErr`; strings are embedded as `List Char` so that
character-level operations (strip, lower, index) are directly expressible.
-/

/-- Embedded Python values (the JSON-like shapes the program manipulates). -/
inductive Val : Type where
  | vnull : Val
  | vbool : Bool → Val
  | vint : Int → Val
  | vstr : List Char → Val
  | vlist : List Val → Val
  | vdict : List (List Char × Val) → Val
  deriving Repr

mutual

/-- Boolean equality on embedded Python values (Python `==` on these shapes). -/
def beqVal : Val → Val → Bool
  | .vnull, .vnull => true
  | .vbool a, .vbool b => a == b
  | .vint a, .vint b => a == b
  | .vstr a, .vstr b => a == b
  | .vlist xs, .vlist ys => beqValList xs ys
  | .vdict xs, .vdict ys => beqValKVs xs ys
  | _, _ => false

/-- Boolean equality on lists of embedded values. -/
def beqValList : List Val → List Val → Bool
  | [], [] => true
  | x :: xs, y :: ys => beqVal x y && beqValList xs ys
  | _, _ => false

/-- Boolean equality on key-value lists of embedded values. -/
def beqValKVs : List (List Char × Val) → List (List Char × Val) → Bool
  | [], [] => true
  | (k1, v1) :: xs, (k2, v2) :: ys => k1 == k2 && beqVal v1 v2 && beqValKVs xs ys
  | _, _ => false

end

theorem beqVal_refl : (a : Val) → beqVal a a = true
  | .vnull => rfl
  | .vbool b => by simp [beqVal]
  | .vint n => by simp [beqVal]
  | .vstr s => by simp [beqVal]
  | .vlist xs => by
      rw [beqVal]
      exact beqValList_refl xs
  | .vdict kvs => by
      rw [beqVal]
      exact beqValKVs_refl kvs
where
  beqValList_refl : (xs : List Val) → beqValList xs xs = true
    | [] => rfl
    | x :: xs => by
        rw [beqValList, beqVal_refl x, beqValList_refl xs]
        rfl
  beqValKVs_refl : (xs : List (List Char × Val)) → beqValKVs xs xs = true
    | [] => rfl
    | (k, v) :: xs => by
        rw [beqValKVs, beqVal_refl v, beqValKVs_refl xs]
        simp

mutual

theorem eq_of_beqVal : (a b : Val) → beqVal a b = true → a = b
  | .vnull, .vnull, _ => rfl
  | .vbool a, .vbool b, h => by
      rw [beqVal] at h
      simp_all
  | .vint a, .vint b, h => by
      rw [beqVal] at h
      simp_all
  | .vstr a, .vstr b, h => by
      rw [beqVal] at h
      simp_all
  | .vlist xs, .vlist ys, h => by
      rw [beqVal] at h
      exact congrArg Val.vlist (eq_of_beqValList xs ys h)
  | .vdict xs, .vdict ys, h => by
      rw [beqVal] at h
      exact congrArg Val.vdict (eq_of_beqValKVs xs ys h)
  | .vnull, .vbool _, h | .vnull, .vint _, h | .vnull, .vstr _, h
  | .vnull, .vlist _, h | .vnull, .vdict _, h
  | .vbool _, .vnull, h | .vbool _, .vint _, h | .vbool _, .vstr _, h
  | .vbool _, .vlist _, h | .vbool _, .vdict _, h
  | .vint _, .vnull, h | .vint _, .vbool _, h | .vint _, .vstr _, h
  | .vint _, .vlist _, h | .vint _, .vdict _, h
  | .vstr _, .vnull, h | .vstr _, .vbool _, h | .vstr _, .vint _, h
  | .vstr _, .vlist _, h | .vstr _, .vdict _, h
  | .vlist _, .vnull, h | .vlist _, .vbool _, h | .vlist _, .vint _, h
  | .vlist _, .vstr _, h | .vlist _, .vdict _, h
  | .vdict _, .vnull, h | .vdict _, .vbool _, h | .vdict _, .vint _, h
  | .vdict _, .vstr _, h | .vdict _, .vlist _, h => by
      rw [beqVal.eq_def] at h
      exact Bool.noConfusion h

theorem eq_of_beqValList : (xs ys : List Val) → beqValList xs ys = true → xs = ys
  | [], [], _ => rfl
  | x :: xs, y :: ys, h => by
      rw [beqValList, Bool.and_eq_true] at h
      rw [eq_of_beqVal x y h.1, eq_of_beqValList xs ys h.2]
  | [], _ :: _, h => by rw [beqValList.eq_def] at h; exact Bool.noConfusion h
  | _ :: _, [], h => by rw [beqValList.eq_def] at h; exact Bool.noConfusion h

theorem eq_of_beqValKVs :
    (xs ys : List (List Char × Val)) → beqValKVs xs ys = true → xs = ys
  | [], [], _ => rfl
  | (k1, v1) :: xs, (k2, v2) :: ys, h => by
      rw [beqValKVs, Bool.and_eq_true, Bool.and_eq_true] at h
      have hk : k1 = k2 := by
        have := h.1.1
        simp_all
      rw [hk, eq_of_beqVal v1 v2 h.1.2, eq_of_beqValKVs xs ys h.2]
  | [], _ :: _, h => by rw [beqValKVs.eq_def] at h; exact Bool.noConfusion h
  | _ :: _, [], h => by rw [beqValKVs.eq_def] at h; exact Bool.noConfusion h

end

theorem beqVal_iff_eq (a b : Val) : beqVal a b = true ↔ a = b :=
  ⟨eq_of_beqVal a b, fun h => h ▸ beqVal_refl a⟩

instance : DecidableEq Val := fun a b =>
  decidable_of_iff (beqVal a b = true) (beqVal_iff_eq a b)

/-- Embedded Python exception kinds. -/
inductive PyErr : Type where
  | keyError : PyErr
  | typeError : PyErr
  | valueError : PyErr
  | indexError : PyErr
  | attrError : PyErr
  | httpError : Nat → PyErr
  | requestError : PyErr
  deriving DecidableEq, Repr

open Val

/-- Python truthiness of a value. -/
def truthy : Val → Bool
  | vnull => false
  | vbool b => b
  | vint n => n != 0
  | vstr s => !s.isEmpty
  | vlist xs => !xs.isEmpty
  | vdict kvs => !kvs.isEmpty

/-- Python `a or b` (returns the first operand when truthy, else the second). -/
def pyOr (a b : Val) : Val := if truthy a then a else b

/-- First-match association lookup with string keys (Python dict lookup). -/
def lookupStr : List (List Char × Val) → List Char → Option Val
  | [], _ => none
  | (k, v) :: rest, key => if k = key then some v else lookupStr rest key

/-- Python `d.get(key, default)`: raises AttributeError on non-dicts. -/
def pyGetD (v : Val) (key : List Char) (default : Val) : Except PyErr Val :=
  match v with
  | vdict kvs => .ok ((lookupStr kvs key).getD default)
  | _ => .error .attrError

/-- Python `d.get(key)` (default `None`). -/
def pyGet (v : Val) (key : List Char) : Except PyErr Val := pyGetD v key vnull

/-- Python `d[key]` for a string key. -/
def pyItem (v : Val) (key : List Char) : Except PyErr Val :=
  match v with
  | vdict kvs =>
      match lookupStr kvs key with
      | some x => .ok x
      | none => .error .keyError
  | _ => .error .typeError

/-- Python `x[0]`: first element of a list, first character of a string;
raises on empty sequences, dicts (KeyError for key `0`) and scalars. -/
def pyIndex0 : Val → Except PyErr Val
  | vlist (x :: _) => .ok x
  | vlist [] => .error .indexError
  | vstr (c :: _) => .ok (vstr [c])
  | vstr [] => .error .indexError
  | vdict _ => .error .keyError
  | _ => .error .typeError

/-- Character list lower-casing (Python `str.lower`). -/
def toLowerL (s : List Char) : List Char := s.map Char.toLower

/-- Python `str.strip()`: remove surrounding whitespace. -/
def trimL (s : List Char) : List Char :=
  ((s.dropWhile Char.isWhitespace).reverse.dropWhile Char.isWhitespace).reverse

/-- Python `str.strip(chars)`: remove any of the given characters from both ends. -/
def stripBoth (cs : List Char) (s : List Char) : List Char :=
  ((s.dropWhile (cs.contains ·)).reverse.dropWhile (cs.contains ·)).reverse

/-- Whether the first list is an initial segment of the second (Python `startswith`). -/
def startsWithL : List Char → List Char → Bool
  | [], _ => true
  | _ :: _, [] => false
  | p :: ps, c :: cs => p == c && startsWithL ps cs

/-- Python substring containment `pat in s`. -/
def containsSeq : List Char → List Char → Bool
  | pat, [] => startsWithL pat []
  | pat, s@(_ :: rest) => startsWithL pat s || containsSeq pat rest

/-- Comma-space joining of rendered pieces (Python container repr). -/
def joinComma : List (List Char) → List Char
  | [] => []
  | [x] => x
  | x :: rest => x ++ (", ".data ++ joinComma rest)

mutual

/-- Python `repr` of an embedded value. -/
def pyRepr : Val → List Char
  | vnull => "None".data
  | vbool true => "True".data
  | vbool false => "False".data
  | vint n => (toString n).data
  | vstr s => '\'' :: (s ++ ['\''])
  | vlist xs => '[' :: (joinComma (pyReprList xs) ++ [']'])
  | vdict kvs => Char.ofNat 123 :: (joinComma (pyReprKVs kvs) ++ [Char.ofNat 125])

/-- `repr` of each element of a list of embedded values. -/
def pyReprList : List Val → List (List Char)
  | [] => []
  | x :: xs => pyRepr x :: pyReprList xs

/-- `repr` of each key-value pair of an embedded dict. -/
def pyReprKVs : List (List Char × Val) → List (List Char)
  | [] => []
  | (k, v) :: kvs => ('\'' :: (k ++ ['\''] ++ ": ".data ++ pyRepr v)) :: pyReprKVs kvs

end

/-- Python `str()` of an embedded value (identity on strings, `repr` otherwise). -/
def pyStr : Val → List Char
  | vstr s => s
  | v => pyRepr v

/-- Python `key in v` for a string key: dict key test, list membership,
substring test on strings; raises TypeError otherwise. -/
def pyIn (key : List Char) (v : Val) : Except PyErr Bool :=
  match v with
  | vdict kvs => .ok (lookupStr kvs key).isSome
  | vlist xs => .ok (xs.any (fun x => beqVal x (vstr key)))
  | vstr s => .ok (containsSeq key s)
  | _ => .error .typeError

/-- Python `.strip()` on a value: only strings support it. -/
def pyStrip : Val → Except PyErr (List Char)
  | vstr s => .ok (trimL s)
  | _ => .error .attrError

/-! ## get_adp_info.py: email normalization and extraction -/

/-- The `mailto:` removal step of `_clean_email`. -/
def mailtoStep (t : List Char) : List Char :=
  if startsWithL "mailto:".data t then t.drop "mailto:".data.length else t

/-- String body of `_clean_email` from get_adp_info.py, after the falsiness
guard: strip and lower-case, drop a `mailto:` prefix, then unwrap a
`Name <addr>` envelope via `s.index("<")` and `s.index(">", start)`;
the second `index` call raises ValueError when no `>` follows the `<`. -/
def cleanEmailS (raw : List Char) : Except PyErr (List Char) :=
  let s := mailtoStep (toLowerL (trimL raw))
  if s.contains '<' && s.contains '@' && s.contains '>' then
    let rest := (s.dropWhile (fun c => c != '<')).tail
    if rest.contains '>' then
      let inner := trimL (rest.takeWhile (fun c => c != '>'))
      if inner.contains '@' then .ok (toLowerL inner) else .ok s
    else .error .valueError
  else .ok s

/-- `_clean_email` from get_adp_info.py on an arbitrary value:
`None` for falsy input, else the normalized string of `str(raw)`. -/
def cleanEmailV (raw : Val) : Except PyErr (Option (List Char)) :=
  if truthy raw then (cleanEmailS (pyStr raw)).map some else .ok none

/-- Body of `_extract_manager_id_from_assignment` after the `reportsTo`
unwrapping: expects a dict; tries `person.associateOID` (unwrapping a
list-shaped person), then `associateOID` on the reference itself, then the
`positionID` fallback. Non-dicts yield `None`. -/
def mgrFromReportsTo (rt : Val) : Except PyErr Val :=
  match rt with
  | vdict _ => do
      let person0 ← pyGet rt "person".data
      let person := match person0 with
        | vlist (x :: _) => x
        | vlist [] => vdict []
        | _ => person0
      let assocP ← (match person with
        | vdict _ => pyGet person "associateOID".data
        | _ => pure vnull)
      if truthy assocP then return assocP
      let assoc ← pyGet rt "associateOID".data
      if truthy assoc then return assoc
      let position ← pyGet rt "positionID".data
      match position with
      | vdict _ => do
          let idv ← pyGet position "idValue".data
          let pid ← pyGet position "positionID".data
          return pyOr idv pid
      | vstr s => return vstr s
      | _ => return vnull
  | _ => .ok vnull

/-- `_extract_manager_id_from_assignment` from get_adp_info.py: falsy
`reportsTo` yields `None`; a list-shaped `reportsTo` is unwrapped to its
first element (`or {}`); then the dict body applies. -/
def extractMgrFromWA (workAssignment : Val) : Except PyErr Val := do
  let rt0 ← pyGet workAssignment "reportsTo".data
  if !truthy rt0 then return vnull
  match rt0 with
  | vlist [] => return vnull
  | vlist (x :: _) => mgrFromReportsTo (pyOr x (vdict []))
  | _ => mgrFromReportsTo rt0

/-- The manager-id computation of `build_org_hierarchy` (second pass) for
one worker: `w.get("workAssignments", []) or []`, then the extractor on
element `[0]` when the list is truthy, else `None`. -/
def mgrIdOfWorker (w : Val) : Except PyErr Val := do
  let wa0 ← pyGetD w "workAssignments".data (vlist [])
  let was := pyOr wa0 (vlist [])
  if truthy was then do
    let first ← pyIndex0 was
    extractMgrFromWA first
  else
    return vnull

/-- The email-alias chain of `extract_email`:
`emailUri or uri or email or value` on one email object. -/
def rawEmailOf (eobj : Val) : Except PyErr Val := do
  let a ← pyGet eobj "emailUri".data
  let b ← pyGet eobj "uri".data
  let c ← pyGet eobj "email".data
  let d ← pyGet eobj "value".data
  return pyOr (pyOr (pyOr a b) c) d

/-- The per-object loop of `extract_email`: skip non-dicts, collect the
alias chain, clean it, and return the first truthy cleaned value. -/
def firstEmailFromList : List Val → Except PyErr (Option (List Char))
  | [] => .ok none
  | eobj :: rest =>
    match eobj with
    | vdict _ => do
        let raw ← rawEmailOf eobj
        let cleaned ← cleanEmailV raw
        match cleaned with
        | some s => if !s.isEmpty then return some s else firstEmailFromList rest
        | none => firstEmailFromList rest
    | _ => firstEmailFromList rest

/-- A fallback loop of `extract_email`: for each key, if present in the
dict, clean the value and return it when truthy. -/
def fallbackEmail (d : Val) : List (List Char) → Except PyErr (Option (List Char))
  | [] => .ok none
  | k :: rest => do
      let isIn ← pyIn k d
      if isIn then do
        let v ← pyItem d k
        let cleaned ← cleanEmailV v
        match cleaned with
        | some s => if !s.isEmpty then return some s else fallbackEmail d rest
        | none => fallbackEmail d rest
      else fallbackEmail d rest

/-- `extract_email` from get_adp_info.py. -/
def extractEmail (worker : Val) : Except PyErr (Option (List Char)) := do
  let p0 ← pyGetD worker "person".data (vdict [])
  let person := pyOr p0 (vdict [])
  let c1 ← pyGet person "communications".data
  let comm ← (if truthy c1 then pure c1 else do
      let c2 ← pyGet person "communication".data
      pure (pyOr c2 (vdict [])))
  let e1 ← pyGet comm "emails".data
  let emails0 ← (if truthy e1 then pure e1 else do
      let e2 ← pyGet comm "email".data
      pure (pyOr e2 (vlist [])))
  let emails := match emails0 with
    | vdict kvs => vlist [vdict kvs]
    | other => other
  let fromList ← (match emails with
    | vlist xs => firstEmailFromList xs
    | _ => pure none)
  match fromList with
  | some s => return some s
  | none => do
    let f1 ← fallbackEmail worker ["workEmail".data, "email".data, "emailAddress".data]
    match f1 with
    | some s => return some s
    | none => do
      let f2 ← fallbackEmail person ["email".data, "emailAddress".data]
      match f2 with
      | some s => return some s
      | none => return none

/-! ## get_adp_info.py: identifier resolver -/

/-- `get_full_name` (local to `find_worker_by_identifier`): strip of
givenName and familyName joined by one space, stripped again. -/
def getFullName (worker : Val) : Except PyErr (List Char) := do
  let p0 ← pyGetD worker "person".data (vdict [])
  let person := pyOr p0 (vdict [])
  let l0 ← pyGetD person "legalName".data (vdict [])
  let legal := pyOr l0 (vdict [])
  let g ← pyGet legal "givenName".data
  let first ← pyStrip (pyOr g (vstr []))
  let f ← pyGet legal "familyName".data
  let last ← pyStrip (pyOr f (vstr []))
  return trimL (first ++ (" ".data ++ last))

/-- The tenant-specific alias loop of `get_candidate_ids`: for each key
present in the worker, `str()` of its value. -/
def customIds (d : Val) : List (List Char) → Except PyErr (List (List Char))
  | [] => .ok []
  | k :: rest => do
      let b ← pyIn k d
      if b then do
        let v ← pyItem d k
        let more ← customIds d rest
        return pyStr v :: more
      else customIds d rest

/-- `get_candidate_ids` (local to `find_worker_by_identifier`): associateOID,
`workerID.idValue`, tenant alias fields; kept when truthy, then
`strip().lower()` applied to the truthy entries. -/
def candidateIds (worker : Val) : Except PyErr (List (List Char)) := do
  let aoid ← pyGet worker "associateOID".data
  let ids1 := if truthy aoid then [pyStr aoid] else []
  let wid0 ← pyGet worker "workerID".data
  let wid ← pyGet (pyOr wid0 (vdict [])) "idValue".data
  let ids2 := ids1 ++ (if truthy wid then [pyStr wid] else [])
  let ids3 ← customIds worker
      ["userId".data, "userID".data, "login".data, "username".data]
  let ids := ids2 ++ ids3
  return (ids.filter (fun i => !i.isEmpty)).map (fun i => toLowerL (trimL i))

mutual

/-- `iter_strings_with_at`: every string containing `@` anywhere in the
value, dict values and list elements in order. -/
def iterStringsWithAt : Val → List (List Char)
  | vdict kvs => iterStringsKVs kvs
  | vlist xs => iterStringsList xs
  | vstr s => if s.contains '@' then [s] else []
  | _ => []

/-- Deep string scan over list elements. -/
def iterStringsList : List Val → List (List Char)
  | [] => []
  | x :: xs => iterStringsWithAt x ++ iterStringsList xs

/-- Deep string scan over dict values. -/
def iterStringsKVs : List (List Char × Val) → List (List Char)
  | [] => []
  | (_, v) :: kvs => iterStringsWithAt v ++ iterStringsKVs kvs

end

/-- Tier 1 loop of `find_worker_by_identifier`: first worker with a
candidate id equal to the target. -/
def scanIds : List Val → List Char → Except PyErr (Option Val)
  | [], _ => .ok none
  | w :: rest, t => do
      let ids ← candidateIds w
      if ids.contains t then return some w else scanIds rest t

/-- Tier 2 loop: first worker whose non-empty full name contains the target. -/
def scanNames : List Val → List Char → Except PyErr (Option Val)
  | [], _ => .ok none
  | w :: rest, t => do
      let fn ← getFullName w
      if !fn.isEmpty && containsSeq t (toLowerL fn) then return some w
      else scanNames rest t

/-- Tier 3 loop: first worker whose truthy primary email contains the target. -/
def scanEmails : List Val → List Char → Except PyErr (Option Val)
  | [], _ => .ok none
  | w :: rest, t => do
      let pe ← extractEmail w
      match pe with
      | some e =>
          if !e.isEmpty && containsSeq t (toLowerL e) then return some w
          else scanEmails rest t
      | none => scanEmails rest t

/-- Tier 4 inner loop: whether any deep-scanned string, after
`_clean_email(s) or s.strip().lower()`, contains the target. -/
def scanDeepAux : List (List Char) → List Char → Except PyErr Bool
  | [], _ => .ok false
  | s :: rest, t => do
      let cv ← cleanEmailV (vstr s)
      let cleaned := match cv with
        | some c => if c.isEmpty then toLowerL (trimL s) else c
        | none => toLowerL (trimL s)
      if containsSeq t cleaned then return true else scanDeepAux rest t

/-- Tier 4 loop: first worker with a deep-scanned matching string. -/
def scanDeep : List Val → List Char → Except PyErr (Option Val)
  | [], _ => .ok none
  | w :: rest, t => do
      let hit ← scanDeepAux (iterStringsWithAt w) t
      if hit then return some w else scanDeep rest t

/-- `find_worker_by_identifier` from get_adp_info.py: normalize the target,
then try the four tiers in order, each scanning the collection in order. -/
def findWorkerByIdentifier (workers : List Val) (identifier : List Char) :
    Except PyErr (Option Val) := do
  let target := toLowerL (trimL identifier)
  match ← scanIds workers target with
  | some w => return some w
  | none =>
  match ← scanNames workers target with
  | some w => return some w
  | none =>
  match ← scanEmails workers target with
  | some w => return some w
  | none => scanDeep workers target

/-! Declarative resolver specification (the tier reading of the spec):
one Boolean matcher per tier, an errored extraction matching nothing,
composed by first-tier-wins and first-record-wins. -/

/-- Spec tier 1: the target equals one of the candidate identifiers. -/
def matchesTierId (t : List Char) (w : Val) : Bool :=
  match candidateIds w with
  | .ok ids => ids.contains t
  | .error _ => false

/-- Spec tier 2: the target is a substring of the non-empty full name. -/
def matchesTierName (t : List Char) (w : Val) : Bool :=
  match getFullName w with
  | .ok fn => !fn.isEmpty && containsSeq t (toLowerL fn)
  | .error _ => false

/-- Spec tier 3: the target is a substring of the truthy primary email. -/
def matchesTierEmail (t : List Char) (w : Val) : Bool :=
  match extractEmail w with
  | .ok (some e) => !e.isEmpty && containsSeq t (toLowerL e)
  | _ => false

/-- Spec tier 4: some deep-scanned string matches the target. -/
def matchesTierDeep (t : List Char) (w : Val) : Bool :=
  match scanDeepAux (iterStringsWithAt w) t with
  | .ok b => b
  | .error _ => false

/-- The resolver as the spec words it: ordered tiers, first tier producing
a match wins, first record in collection order wins within a tier. -/
def resolveSpec (workers : List Val) (identifier : List Char) : Option Val :=
  let t := toLowerL (trimL identifier)
  (workers.find? (matchesTierId t)) <|>
  ((workers.find? (matchesTierName t)) <|>
  ((workers.find? (matchesTierEmail t)) <|>
  (workers.find? (matchesTierDeep t))))

/-! ## get_adp_info.py: hierarchy builder -/

/-- The identifier expression of `build_org_hierarchy` and `print_org_tree`:
`w.get("associateOID") or (w.get("workerID") or {}).get("idValue")`
(the second operand is only evaluated when the first is falsy). -/
def aoidExpr (w : Val) : Except PyErr Val := do
  let a ← pyGet w "associateOID".data
  if truthy a then return a
  else do
    let wid ← pyGet w "workerID".data
    pyGet (pyOr wid (vdict [])) "idValue".data

/-- Python dict assignment `m[k] = v` on a value-keyed dict: replace in
place, or append a new key at the end (insertion order). -/
def updateVal (m : List (Val × Val)) (k : Val) (v : Val) : List (Val × Val) :=
  match m with
  | [] => [(k, v)]
  | (k0, v0) :: rest =>
      if k0 = k then (k0, v) :: rest else (k0, v0) :: updateVal rest k v

/-- Python `m.setdefault(k, []).append(w)` on a bucket dict. -/
def appendBucket (m : List (Val × List Val)) (k : Val) (w : Val) :
    List (Val × List Val) :=
  match m with
  | [] => [(k, [w])]
  | (k0, ws) :: rest =>
      if k0 = k then (k0, ws ++ [w]) :: rest else (k0, ws) :: appendBucket rest k w

/-- First pass of `build_org_hierarchy`: index workers by derived id,
skipping records whose id is falsy. -/
def indexPass : List Val → List (Val × Val) → Except PyErr (List (Val × Val))
  | [], wm => .ok wm
  | w :: rest, wm => do
      let aoid ← aoidExpr w
      if truthy aoid then indexPass rest (updateVal wm aoid w)
      else indexPass rest wm

/-- Second pass of `build_org_hierarchy`: append each identifiable worker
to its manager bucket, or to the `None` bucket when the manager id is falsy. -/
def linkPass : List Val → List (Val × List Val) →
    Except PyErr (List (Val × List Val))
  | [], mm => .ok mm
  | w :: rest, mm => do
      let aoid ← aoidExpr w
      if !truthy aoid then linkPass rest mm
      else do
        let mid ← mgrIdOfWorker w
        if truthy mid then linkPass rest (appendBucket mm mid w)
        else linkPass rest (appendBucket mm vnull w)

/-- `build_org_hierarchy` from get_adp_info.py: returns
`(manager_map, worker_map)`. -/
def buildOrgHierarchy (workers : List Val) :
    Except PyErr (List (Val × List Val) × List (Val × Val)) := do
  let wm ← indexPass workers []
  let mm ← linkPass workers []
  return (mm, wm)

/-! ## get_adp_info.py: tree renderer -/

/-- Python `manager_map.get(manager_id, [])` lookup. -/
def lookupBucket (m : List (Val × List Val)) (k : Val) : Option (List Val) :=
  match m with
  | [] => none
  | (k0, ws) :: rest => if k0 = k then some ws else lookupBucket rest k

/-- The display line computed by one `print_org_tree` loop iteration
(name, family and parenthesized title), without the indentation spaces. -/
def renderLineOf (emp : Val) : Except PyErr (List Char) := do
  let person ← pyGetD emp "person".data (vdict [])
  let legal ← pyGetD person "legalName".data (vdict [])
  let name ← pyGetD legal "givenName".data (vstr "Unknown".data)
  let family ← pyGetD legal "familyName".data (vstr [])
  let fullName := trimL (pyStr name ++ (" ".data ++ pyStr family))
  let wa ← pyGetD emp "workAssignments".data (vlist [])
  let title ← (if truthy wa then do
      let w0 ← pyIndex0 wa
      let jt ← pyGet w0 "jobTitle".data
      pure (pyOr jt (vstr "Unknown".data))
    else pure (vstr "Unknown".data))
  return "- ".data ++ (fullName ++ (" (".data ++ (pyStr title ++ ")".data)))

mutual

/-- `print_org_tree` from get_adp_info.py, instrumented with fuel: `none`
means the recursion exceeded the fuel (one fuel unit per recursion level);
`some (.error e)` a raised Python exception; `some (.ok evs)` the emitted
events, one `(indent, id, line)` per printed record in print order.
The unused `worker_map` parameter of the source is dropped. -/
def renderTree : Nat → List (Val × List Val) → Val → Nat →
    Option (Except PyErr (List (Nat × Val × List Char)))
  | 0, _, _, _ => none
  | fuel + 1, mmap, mid, indent =>
      renderBucket fuel mmap ((lookupBucket mmap mid).getD []) indent

/-- The employee loop of `print_org_tree`: for each record, compute its id
and line, emit them, recurse into its bucket at `indent + 4`, then continue
with the remaining records. -/
def renderBucket : Nat → List (Val × List Val) → List Val → Nat →
    Option (Except PyErr (List (Nat × Val × List Char)))
  | _, _, [], _ => some (.ok [])
  | fuel, mmap, emp :: rest, indent =>
      match aoidExpr emp with
      | .error e => some (.error e)
      | .ok aoid =>
        match renderLineOf emp with
        | .error e => some (.error e)
        | .ok line =>
          match renderTree fuel mmap aoid (indent + 4) with
          | none => none
          | some (.error e) => some (.error e)
          | some (.ok sub) =>
            match renderBucket fuel mmap rest indent with
            | none => none
            | some (.error e) => some (.error e)
            | some (.ok tailEvs) =>
                some (.ok ((indent, aoid, line) :: (sub ++ tailEvs)))

end

/-! ## sync_single_employee.py: extractors -/

/-- Python `.lower()` on a value: only strings support it. -/
def pyLower : Val → Except PyErr (List Char)
  | vstr s => .ok (toLowerL s)
  | _ => .error .attrError

/-- `worker_work_email` from sync_single_employee.py:
`businessCommunication.emails[0].emailUri`, else `None`. -/
def workerWorkEmail (worker : Val) : Except PyErr Val := do
  let bc0 ← pyGetD worker "businessCommunication".data (vdict [])
  let bc := pyOr bc0 (vdict [])
  let e0 ← pyGetD bc "emails".data (vlist [])
  let emails := pyOr e0 (vlist [])
  if truthy emails then do
    let first ← pyIndex0 emails
    pyGet first "emailUri".data
  else return vnull

/-- `worker_personal_email` from sync_single_employee.py:
`person.communication.emails[0].emailUri`, else `None`. -/
def workerPersonalEmail (worker : Val) : Except PyErr Val := do
  let p0 ← pyGetD worker "person".data (vdict [])
  let person := pyOr p0 (vdict [])
  let c0 ← pyGetD person "communication".data (vdict [])
  let comm := pyOr c0 (vdict [])
  let e0 ← pyGetD comm "emails".data (vlist [])
  let emails := pyOr e0 (vlist [])
  if truthy emails then do
    let first ← pyIndex0 emails
    pyGet first "emailUri".data
  else return vnull

/-- `worker_full_name` from sync_single_employee.py: the raw
`formattedName` when present and truthy, else
`f"{last}, {first}".strip(", ")` from `familyName1` and `givenName`,
each read as `legal.get(key, "") or ""` — defaulting to the empty string
and coercing a present-but-falsy value to the empty string too. -/
def workerFullName (worker : Val) : Except PyErr Val := do
  let p0 ← pyGetD worker "person".data (vdict [])
  let person := pyOr p0 (vdict [])
  let l0 ← pyGetD person "legalName".data (vdict [])
  let legal := pyOr l0 (vdict [])
  let hasKey ← pyIn "formattedName".data legal
  let fmt ← (if hasKey then do
      let fn ← pyItem legal "formattedName".data
      pure (if truthy fn then some fn else none)
    else pure none)
  match fmt with
  | some fn => return fn
  | none => do
      let f0 ← pyGetD legal "givenName".data (vstr [])
      let first := pyOr f0 (vstr [])
      let l1 ← pyGetD legal "familyName1".data (vstr [])
      let last := pyOr l1 (vstr [])
      return vstr (stripBoth ", ".data ((pyStr last ++ ", ".data) ++ pyStr first))

/-! ## import_employees.py: TalentLMS client and importer -/

/-- Outcome of one HTTP exchange as seen by `_make_request`. -/
inductive HttpOutcome : Type where
  | success : Val → HttpOutcome
  | httpError : Nat → HttpOutcome
  | requestFailure : HttpOutcome
  deriving DecidableEq, Repr

/-- `TalentLMSClient._make_request`: returns the JSON body on success,
raises `HTTPError` after `raise_for_status`, re-raises a
`RequestException` for transport failures. -/
def makeRequest : HttpOutcome → Except PyErr Val
  | .success v => .ok v
  | .httpError s => .error (.httpError s)
  | .requestFailure => .error .requestError

/-- `TalentLMSClient.get_user_by_email`: `None` on a 404 `HTTPError`,
re-raise of other `HTTPError`s, and `None` again for anything else
(the bare `except:` clause). -/
def getUserByEmail (outcome : HttpOutcome) : Except PyErr Val :=
  match makeRequest outcome with
  | .ok v => .ok v
  | .error (.httpError 404) => .ok vnull
  | .error (.httpError s) => .error (.httpError s)
  | .error _ => .ok vnull

/-- Rendering of `str(e)` for an exception (only used as log text). -/
def pyErrStr : PyErr → List Char
  | .keyError => "KeyError".data
  | .typeError => "TypeError".data
  | .valueError => "ValueError".data
  | .indexError => "IndexError".data
  | .attrError => "AttributeError".data
  | .httpError s => "HTTPError ".data ++ (toString s).data
  | .requestError => "RequestException".data

/-- The collaborator surface used by `EmployeeImporter.import_employee`:
each operation may return a value or raise. -/
structure LMSClient : Type where
  getUserByEmailF : Val → Except PyErr Val
  createUserF : Val → Val → Val → Val → Val → Val → Except PyErr Val
  addUserToCourseF : Val → Int → Except PyErr Val

/-- The mutable `result` dict of `import_employee`. -/
structure ImportResult : Type where
  email : Val
  status : List Char
  userId : Val
  errors : List (List Char)
  coursesAssigned : List Int
  deriving DecidableEq, Repr

/-- The course-assignment loop of `import_employee`: each enrollment has
its own try/except, so the loop never raises. -/
def assignCourses (client : LMSClient) : ImportResult → List Int → ImportResult
  | r, [] => r
  | r, c :: rest =>
      match client.addUserToCourseF r.userId c with
      | .ok _ =>
          assignCourses client
            { r with coursesAssigned := r.coursesAssigned ++ [c] } rest
      | .error e =>
          assignCourses client
            { r with errors := r.errors ++
                ["Failed to assign course ".data ++ ((toString c).data ++
                  (": ".data ++ pyErrStr e))] } rest

/-- The body of the `try` block of `import_employee`, for a given initial
result: lookup, skip-or-create, then optional enrollment. -/
def importAttempt (client : LMSClient) (employee : Val)
    (courses : Option (List Int)) (r0 : ImportResult) :
    Except PyErr ImportResult := do
  let emailV ← pyItem employee "email".data
  let existing ← client.getUserByEmailF emailV
  let r1 ← (if truthy existing then do
      let uid ← pyGet existing "id".data
      pure { r0 with status := "skipped".data, userId := uid,
                     errors := r0.errors ++ ["User already exists".data] }
    else do
      let fn ← pyItem employee "first_name".data
      let ln ← pyItem employee "last_name".data
      let em2 ← pyItem employee "email".data
      let loginDefault ← pyItem employee "email".data
      let login ← pyGetD employee "login".data loginDefault
      let pw ← pyGet employee "password".data
      let ut ← pyGet employee "user_type".data
      let newUser ← client.createUserF fn ln em2 login pw ut
      let uid ← pyGet newUser "id".data
      pure { r0 with userId := uid, status := "success".data })
  let doCourses := match courses with
    | some cs => !cs.isEmpty && truthy r1.userId
    | none => false
  if doCourses then
    pure (assignCourses client r1 (courses.getD []))
  else
    pure r1

/-- `EmployeeImporter.import_employee`: builds the initial result (reading
`employee.get("email")` outside the try), runs the attempt, and on an
exception marks the result failed — but the handler itself re-reads
`employee["email"]` for its print, so a missing email key re-raises there
and the log append is skipped. Returns the outcome together with the
updated import log. -/
def importEmployee (client : LMSClient) (employee : Val)
    (courses : Option (List Int)) (log : List ImportResult) :
    Except PyErr ImportResult × List ImportResult :=
  match pyGet employee "email".data with
  | .error e => (.error e, log)
  | .ok em =>
    let r0 : ImportResult :=
      { email := em, status := "pending".data, userId := vnull,
        errors := [], coursesAssigned := [] }
    match importAttempt client employee courses r0 with
    | .ok r => (.ok r, log ++ [r])
    | .error e =>
      let rF := { r0 with status := "failed".data,
                          errors := r0.errors ++ [pyErrStr e] }
      match pyItem employee "email".data with
      | .ok _ => (.ok rF, log ++ [rF])
      | .error e2 => (.error e2, log)

/-! ## General helper lemmas -/

theorem ebind_ok {α β : Type} (a : α) (f : α → Except PyErr β) :
    (Except.ok a >>= f) = f a := rfl

theorem ebind_error {α β : Type} (e : PyErr) (f : α → Except PyErr β) :
    ((Except.error e : Except PyErr α) >>= f) = Except.error e := rfl

theorem orElse_some {α : Type} (a : α) (b : Option α) :
    (some a <|> b) = some a := rfl

theorem orElse_none {α : Type} (b : Option α) : ((none : Option α) <|> b) = b := rfl

/-! ## C8: Account Service lookup -/

/-- The claim behind C8, as stated: a `None` result only arises from a 404.
The bare `except:` clause refutes it: a transport failure
(`RequestException`) is also reported as `None`, i.e. as a not-found. -/
theorem getUserByEmail_c8_counterexample :
    getUserByEmail .requestFailure = .ok Val.vnull ∧
    HttpOutcome.requestFailure ≠ HttpOutcome.httpError 404 :=
  ⟨rfl, by decide⟩

/-- C8 (amended): `get_user_by_email` returns the body on success, `None`
on a 404, re-raises every other HTTP error, and swallows non-HTTP
collaborator failures into `None` (the bare `except:`); a resolution miss
is never reported as an error, but a non-HTTP failure is reported as a
miss. -/
theorem getUserByEmail_c8_amended : ∀ s : Nat, s ≠ 404 →
    (∀ v, getUserByEmail (.success v) = .ok v) ∧
    getUserByEmail (.httpError 404) = .ok Val.vnull ∧
    getUserByEmail (.httpError s) = .error (.httpError s) ∧
    getUserByEmail .requestFailure = .ok Val.vnull := by
  intro s hs
  refine ⟨fun v => rfl, rfl, ?_, rfl⟩
  unfold getUserByEmail makeRequest
  split <;> simp_all
  rename_i hforall heq
  exact hforall s heq.symm

/-- Witness for C8 (amended) at status 500. -/
theorem getUserByEmail_c8_witness :
    getUserByEmail (.success Val.vnull) = .ok Val.vnull ∧
    getUserByEmail (.httpError 404) = .ok Val.vnull ∧
    getUserByEmail (.httpError 500) = .error (.httpError 500) ∧
    getUserByEmail .requestFailure = .ok Val.vnull := by
  have h := getUserByEmail_c8_amended 500 (by decide)
  exact ⟨h.1 Val.vnull, h.2.1, h.2.2.1, h.2.2.2⟩

/-! ## C9: single-employee import -/

theorem bind_eq_ok {α β : Type} {a : Except PyErr α} {f : α → Except PyErr β}
    {r : β} (h : (a >>= f) = .ok r) : ∃ x, a = .ok x ∧ f x = .ok r := by
  cases a with
  | ok x => exact ⟨x, rfl, h⟩
  | error e => rw [ebind_error] at h; exact absurd h (by simp)

theorem pure_eq_ok {α : Type} {x r : α}
    (h : (pure x : Except PyErr α) = .ok r) : x = r := Except.ok.inj h

/-- Course assignment never changes the status field. -/
theorem assignCourses_status (client : LMSClient) :
    ∀ (cs : List Int) (r : ImportResult),
      (assignCourses client r cs).status = r.status := by
  intro cs
  induction cs with
  | nil => intro r; rfl
  | cons c rest ih =>
      intro r
      unfold assignCourses
      cases client.addUserToCourseF r.userId c with
      | ok _ => exact ih _
      | error e => exact ih _

/-- A successful attempt ends with status skipped or success. -/
theorem importAttempt_status (client : LMSClient) (employee : Val)
    (courses : Option (List Int)) (r0 r : ImportResult)
    (h : importAttempt client employee courses r0 = .ok r) :
    r.status = "skipped".data ∨ r.status = "success".data := by
  unfold importAttempt at h
  obtain ⟨emailV, h1, h⟩ := bind_eq_ok h
  obtain ⟨existing, h2, h⟩ := bind_eq_ok h
  obtain ⟨r1, h3, h⟩ := bind_eq_ok h
  have hr : r.status = r1.status := by
    clear h1 h2 h3
    cases courses with
    | none =>
        rw [← pure_eq_ok h]
    | some cs =>
        by_cases hdc : (!cs.isEmpty && truthy r1.userId) = true
        · simp only [hdc, if_pos] at h
          rw [← pure_eq_ok h]
          exact assignCourses_status client _ r1
        · simp only [Bool.not_eq_true] at hdc
          simp only [hdc, Bool.false_eq_true, if_false] at h
          rw [← pure_eq_ok h]
  rw [hr]
  by_cases ht : truthy existing = true
  · rw [if_pos ht] at h3
    obtain ⟨uid, h4, h3⟩ := bind_eq_ok h3
    cases h3
    exact Or.inl rfl
  · rw [if_neg ht] at h3
    obtain ⟨fn, _, h3⟩ := bind_eq_ok h3
    obtain ⟨ln, _, h3⟩ := bind_eq_ok h3
    obtain ⟨em2, _, h3⟩ := bind_eq_ok h3
    obtain ⟨ld, _, h3⟩ := bind_eq_ok h3
    obtain ⟨login, _, h3⟩ := bind_eq_ok h3
    obtain ⟨pw, _, h3⟩ := bind_eq_ok h3
    obtain ⟨ut, _, h3⟩ := bind_eq_ok h3
    obtain ⟨newUser, _, h3⟩ := bind_eq_ok h3
    obtain ⟨uid, _, h3⟩ := bind_eq_ok h3
    cases h3
    exact Or.inr rfl

/-- A trivial collaborator whose operations all succeed with `None`. -/
def trivialClient : LMSClient :=
  ⟨fun _ => .ok vnull, fun _ _ _ _ _ _ => .ok vnull, fun _ _ => .ok vnull⟩

/-- The claim behind C9, as stated, is refuted by an employee dict with no
`email` key: the handler itself raises `KeyError` re-reading
`employee["email"]`, the exception propagates, and no log entry is
appended. -/
theorem importEmployee_c9_counterexample :
    importEmployee trivialClient (vdict []) none [] = (.error .keyError, []) := rfl

/-- C9 (amended): when the employee dict does contain the `email` key,
`import_employee` never propagates an exception, returns a result whose
status is success, skipped or failed, and appends exactly that one result
to the import log. -/
theorem importEmployee_c9_amended :
    ∀ (client : LMSClient) (l : List (List Char × Val))
      (courses : Option (List Int)) (log : List ImportResult),
      (lookupStr l "email".data).isSome = true →
      ∃ r, importEmployee client (vdict l) courses log = (.ok r, log ++ [r]) ∧
        (r.status = "success".data ∨ r.status = "skipped".data ∨
         r.status = "failed".data) := by
  intro client l courses log hkey
  obtain ⟨em, hem⟩ := Option.isSome_iff_exists.mp hkey
  unfold importEmployee
  simp only [pyGet, pyGetD, hem, Option.getD]
  cases hA : importAttempt client (vdict l) courses
      { email := em, status := "pending".data, userId := vnull,
        errors := [], coursesAssigned := [] } with
  | ok r =>
      refine ⟨r, rfl, ?_⟩
      rcases importAttempt_status _ _ _ _ _ hA with h | h
      · exact Or.inr (Or.inl h)
      · exact Or.inl h
  | error e =>
      simp only [pyItem, hem]
      exact ⟨_, rfl, Or.inr (Or.inr rfl)⟩

/-- Witness for C9 (amended) at a concrete employee dict. -/
theorem importEmployee_c9_witness :
    ∃ r, importEmployee trivialClient
        (vdict [("email".data, vstr "a@b.co".data)]) none [] = (.ok r, [r]) ∧
      (r.status = "success".data ∨ r.status = "skipped".data ∨
       r.status = "failed".data) :=
  importEmployee_c9_amended trivialClient
    [("email".data, vstr "a@b.co".data)] none [] (by decide)

/-! ## C10: every bucket in the hierarchy mapping is non-empty -/

theorem appendBucket_nonempty (m : List (Val × List Val)) (k w : Val)
    (hm : ∀ kb ∈ m, kb.2 ≠ []) :
    ∀ kb ∈ appendBucket m k w, kb.2 ≠ [] := by
  induction m with
  | nil =>
      intro kb hkb
      simp only [appendBucket, List.mem_singleton] at hkb
      subst hkb
      simp
  | cons hd rest ih =>
      intro kb hkb
      obtain ⟨k0, ws⟩ := hd
      unfold appendBucket at hkb
      by_cases hk : k0 = k
      · rw [if_pos hk] at hkb
        rcases List.mem_cons.mp hkb with h | h
        · subst h; simp
        · exact hm _ (List.mem_cons_of_mem _ h)
      · rw [if_neg hk] at hkb
        rcases List.mem_cons.mp hkb with h | h
        · subst h
          exact hm _ (List.mem_cons_self _ _)
        · exact ih (fun kb hkb => hm _ (List.mem_cons_of_mem _ hkb)) _ h

theorem linkPass_nonempty :
    ∀ (ws : List Val) (mm0 mm : List (Val × List Val)),
      (∀ kb ∈ mm0, kb.2 ≠ []) → linkPass ws mm0 = .ok mm →
      ∀ kb ∈ mm, kb.2 ≠ [] := by
  intro ws
  induction ws with
  | nil =>
      intro mm0 mm hmm0 h
      unfold linkPass at h
      cases h
      exact hmm0
  | cons w rest ih =>
      intro mm0 mm hmm0 h
      unfold linkPass at h
      obtain ⟨aoid, h1, h⟩ := bind_eq_ok h
      by_cases ht : truthy aoid = true
      · simp only [ht, Bool.not_true, Bool.false_eq_true, if_false] at h
        obtain ⟨mid, h2, h⟩ := bind_eq_ok h
        by_cases hm : truthy mid = true
        · rw [if_pos hm] at h
          exact ih _ _ (appendBucket_nonempty _ _ _ hmm0) h
        · simp only [Bool.not_eq_true] at hm
          simp only [hm, Bool.false_eq_true, if_false] at h
          exact ih _ _ (appendBucket_nonempty _ _ _ hmm0) h
      · simp only [Bool.not_eq_true] at ht
        simp only [ht, Bool.not_false, if_true] at h
        exact ih _ _ hmm0 h

/-- C10: every key of the hierarchy mapping produced by
`build_org_hierarchy` maps to a non-empty bucket: buckets are only created
at the moment a record is appended. -/
theorem buildOrg_c10_buckets_nonempty :
    ∀ (ws : List Val) (mm : List (Val × List Val)) (wm : List (Val × Val))
      (k : Val) (b : List Val),
      buildOrgHierarchy ws = .ok (mm, wm) → (k, b) ∈ mm → b ≠ [] := by
  intro ws mm wm k b h hmem
  unfold buildOrgHierarchy at h
  obtain ⟨wm0, h1, h⟩ := bind_eq_ok h
  obtain ⟨mm0, h2, h⟩ := bind_eq_ok h
  have hpair := pure_eq_ok h
  injection hpair with hL hR
  subst hL
  exact linkPass_nonempty ws [] mm0 (by simp) h2 (k, b) hmem

/-- Witness for C10 at a one-record collection. -/
theorem buildOrg_c10_witness :
    buildOrgHierarchy [vdict [("associateOID".data, vstr "a1".data)]] =
      .ok ([(vnull, [vdict [("associateOID".data, vstr "a1".data)]])],
           [(vstr "a1".data, vdict [("associateOID".data, vstr "a1".data)])]) ∧
    ([vdict [("associateOID".data, vstr "a1".data)]] : List Val) ≠ [] :=
  ⟨rfl,
   buildOrg_c10_buckets_nonempty [vdict [("associateOID".data, vstr "a1".data)]]
     [(vnull, [vdict [("associateOID".data, vstr "a1".data)]])]
     [(vstr "a1".data, vdict [("associateOID".data, vstr "a1".data)])]
     vnull [vdict [("associateOID".data, vstr "a1".data)]] rfl
     (by simp)⟩

/-! ## C4: email normalization pipeline -/

/-- The envelope unwrapping as the spec words it, applied before
lower-casing: when a `<` is followed by a `>` and the inner part carries an
`@`, the inner address (trimmed) replaces the string. -/
def unwrapPlain (t : List Char) : List Char :=
  let rest := (t.dropWhile (fun c => c != '<')).tail
  let inner := trimL (rest.takeWhile (fun c => c != '>'))
  if t.contains '<' && (rest.contains '>' && inner.contains '@') then inner else t

/-- The claim pipeline of C4, in the stated order: strip surrounding
whitespace, strip a leading `mailto:` prefix, unwrap the envelope, then
lower-case the result. -/
def cleanEmailClaim (s : List Char) : List Char :=
  toLowerL (unwrapPlain (mailtoStep (trimL s)))

/-- The same envelope unwrapping applied to an already lower-cased string,
lower-casing the inner part as the code does. -/
def unwrapEnvelope (t : List Char) : List Char :=
  let rest := (t.dropWhile (fun c => c != '<')).tail
  let inner := trimL (rest.takeWhile (fun c => c != '>'))
  if t.contains '<' && (rest.contains '>' && inner.contains '@') then toLowerL inner
  else t

/-- The amended pipeline: lower-case and trim first, then strip the
(effectively case-insensitive) `mailto:` prefix, then unwrap. -/
def cleanEmailAmended (s : List Char) : List Char :=
  unwrapEnvelope (mailtoStep (toLowerL (trimL s)))

/-- The inputs on which `_clean_email` does not raise: whenever `<`, `@`
and `>` all occur in the prepared string, some `>` follows the first `<`. -/
def okClean (s : List Char) : Bool :=
  let t := mailtoStep (toLowerL (trimL s))
  !(t.contains '<' && t.contains '@' && t.contains '>' &&
    !((t.dropWhile (fun c => c != '<')).tail.contains '>'))

theorem contains_iff_mem (a : Char) (l : List Char) :
    l.contains a = true ↔ a ∈ l := by
  induction l with
  | nil => simp
  | cons c rest ih =>
      simp only [List.contains_cons, Bool.or_eq_true, beq_iff_eq, ih, List.mem_cons]

theorem mem_of_mem_dropWhile {a : Char} {p : Char → Bool} {l : List Char}
    (h : a ∈ l.dropWhile p) : a ∈ l := (List.dropWhile_sublist p).subset h

theorem mem_of_mem_takeWhile {a : Char} {p : Char → Bool} {l : List Char}
    (h : a ∈ l.takeWhile p) : a ∈ l := (List.takeWhile_sublist p).subset h

theorem mem_of_mem_tail {a : Char} {l : List Char} (h : a ∈ l.tail) : a ∈ l :=
  (List.tail_sublist l).subset h

theorem mem_of_mem_trimL {a : Char} {l : List Char} (h : a ∈ trimL l) : a ∈ l := by
  unfold trimL at h
  rw [List.mem_reverse] at h
  have h2 := mem_of_mem_dropWhile h
  rw [List.mem_reverse] at h2
  exact mem_of_mem_dropWhile h2

/-- The claim behind C4, as stated, is refuted at `"MAILTO:X@Y.COM"`: the
code lower-cases before stripping the prefix, so it strips the upper-case
`MAILTO:` as well and returns `"x@y.com"`, while the claimed order leaves
`"mailto:x@y.com"`. -/
theorem cleanEmail_c4_counterexample :
    cleanEmailS "MAILTO:X@Y.COM".data = .ok "x@y.com".data ∧
    cleanEmailClaim "MAILTO:X@Y.COM".data = "mailto:x@y.com".data ∧
    "x@y.com".data ≠ "mailto:x@y.com".data := by
  refine ⟨rfl, by decide, by decide⟩

/-- C4 (amended): on every input where `_clean_email` does not raise (no
`<`/`@`/`>` pathology), the code equals the pipeline that trims and
lower-cases first, then strips the now case-insensitive `mailto:` prefix,
then unwraps the `Name <addr>` envelope. -/
theorem cleanEmail_c4_amended :
    ∀ s : List Char, okClean s = true → cleanEmailS s = .ok (cleanEmailAmended s) := by
  intro s h
  unfold okClean at h
  unfold cleanEmailS cleanEmailAmended unwrapEnvelope
  revert h
  dsimp only
  generalize mailtoStep (toLowerL (trimL s)) = t
  intro h
  simp only [Bool.not_eq_true'] at h
  split
  · rename_i hg1
    have hlt : t.contains '<' = true := by
      simp only [Bool.and_eq_true] at hg1
      exact hg1.1.1
    split
    · rename_i hrest
      split
      · rename_i hin
        rw [if_pos (by rw [hlt, hrest, hin]; rfl)]
      · rename_i hin
        have hin' := Bool.eq_false_iff.mpr hin
        rw [if_neg (fun hcon => by
          simp only [Bool.and_eq_true] at hcon
          exact absurd hcon.2.2 (by rw [hin']; simp))]
    · rename_i hrest
      exfalso
      have hrest' := Bool.eq_false_iff.mpr hrest
      rw [hg1, hrest'] at h
      simp at h
  · rename_i hg1
    have hg1' := Bool.eq_false_iff.mpr hg1
    rw [if_neg]
    intro hcon
    simp only [Bool.and_eq_true] at hcon
    have hat : t.contains '@' = true := by
      rw [contains_iff_mem]
      have := (contains_iff_mem _ _).mp hcon.2.2
      exact mem_of_mem_dropWhile (mem_of_mem_tail
        (mem_of_mem_takeWhile (mem_of_mem_trimL this)))
    have hgt : t.contains '>' = true := by
      rw [contains_iff_mem]
      have := (contains_iff_mem _ _).mp hcon.2.1
      exact mem_of_mem_dropWhile (mem_of_mem_tail this)
    rw [hcon.1, hat, hgt] at hg1'
    simp at hg1'

/-- Witness for C4 (amended) at the spec scenario. -/
theorem cleanEmail_c4_witness :
    okClean "  Jo Smith <JO@CO.com>  ".data = true ∧
    cleanEmailS "  Jo Smith <JO@CO.com>  ".data = .ok "jo@co.com".data ∧
    cleanEmailAmended "  Jo Smith <JO@CO.com>  ".data = "jo@co.com".data :=
  ⟨by decide,
   by rw [cleanEmail_c4_amended "  Jo Smith <JO@CO.com>  ".data (by decide)]
      exact congrArg Except.ok (by decide),
   by decide⟩

/-! ## C1: resolver tier ordering -/

theorem scanIds_ok : ∀ (ws : List Val) (t : List Char) (r : Option Val),
    scanIds ws t = .ok r → r = ws.find? (matchesTierId t) := by
  intro ws
  induction ws with
  | nil =>
      intro t r h
      unfold scanIds at h
      cases h
      rfl
  | cons w rest ih =>
      intro t r h
      unfold scanIds at h
      obtain ⟨ids, h1, h⟩ := bind_eq_ok h
      by_cases hm : ids.contains t = true
      · rw [if_pos hm] at h
        have hr := pure_eq_ok h
        have hmt : matchesTierId t w = true := by
          unfold matchesTierId
          rw [h1]
          exact hm
        simp only [List.find?, hmt]
        exact hr.symm
      · rw [if_neg hm] at h
        have hmt : matchesTierId t w = false := by
          unfold matchesTierId
          rw [h1]
          exact Bool.eq_false_iff.mpr hm
        simp only [List.find?, hmt]
        exact ih t r h

theorem scanNames_ok : ∀ (ws : List Val) (t : List Char) (r : Option Val),
    scanNames ws t = .ok r → r = ws.find? (matchesTierName t) := by
  intro ws
  induction ws with
  | nil =>
      intro t r h
      unfold scanNames at h
      cases h
      rfl
  | cons w rest ih =>
      intro t r h
      unfold scanNames at h
      obtain ⟨fn, h1, h⟩ := bind_eq_ok h
      by_cases hm : (!fn.isEmpty && containsSeq t (toLowerL fn)) = true
      · rw [if_pos hm] at h
        have hr := pure_eq_ok h
        have hmt : matchesTierName t w = true := by
          unfold matchesTierName
          rw [h1]
          exact hm
        simp only [List.find?, hmt]
        exact hr.symm
      · rw [if_neg hm] at h
        have hmt : matchesTierName t w = false := by
          unfold matchesTierName
          rw [h1]
          exact Bool.eq_false_iff.mpr hm
        simp only [List.find?, hmt]
        exact ih t r h

theorem scanEmails_ok : ∀ (ws : List Val) (t : List Char) (r : Option Val),
    scanEmails ws t = .ok r → r = ws.find? (matchesTierEmail t) := by
  intro ws
  induction ws with
  | nil =>
      intro t r h
      unfold scanEmails at h
      cases h
      rfl
  | cons w rest ih =>
      intro t r h
      unfold scanEmails at h
      obtain ⟨pe, h1, h⟩ := bind_eq_ok h
      cases pe with
      | none =>
          dsimp only at h
          have hmt : matchesTierEmail t w = false := by
            unfold matchesTierEmail
            rw [h1]
          simp only [List.find?, hmt]
          exact ih t r h
      | some e =>
          dsimp only at h
          by_cases hm : (!e.isEmpty && containsSeq t (toLowerL e)) = true
          · rw [if_pos hm] at h
            have hr := pure_eq_ok h
            have hmt : matchesTierEmail t w = true := by
              unfold matchesTierEmail
              rw [h1]
              exact hm
            simp only [List.find?, hmt]
            exact hr.symm
          · rw [if_neg hm] at h
            have hmt : matchesTierEmail t w = false := by
              unfold matchesTierEmail
              rw [h1]
              exact Bool.eq_false_iff.mpr hm
            simp only [List.find?, hmt]
            exact ih t r h

theorem scanDeep_ok : ∀ (ws : List Val) (t : List Char) (r : Option Val),
    scanDeep ws t = .ok r → r = ws.find? (matchesTierDeep t) := by
  intro ws
  induction ws with
  | nil =>
      intro t r h
      unfold scanDeep at h
      cases h
      rfl
  | cons w rest ih =>
      intro t r h
      unfold scanDeep at h
      obtain ⟨hit, h1, h⟩ := bind_eq_ok h
      cases hit with
      | true =>
          rw [if_pos rfl] at h
          have hr := pure_eq_ok h
          have hmt : matchesTierDeep t w = true := by
            unfold matchesTierDeep
            rw [h1]
          simp only [List.find?, hmt]
          exact hr.symm
      | false =>
          rw [if_neg (by simp)] at h
          have hmt : matchesTierDeep t w = false := by
            unfold matchesTierDeep
            rw [h1]
          simp only [List.find?, hmt]
          exact ih t r h

/-- C1: when the resolver returns (no extractor raised), its answer is
exactly the spec reading: the four tiers are tried in the fixed order
exact-identifier, name-substring, primary-email-substring,
deep-scan-substring; the first tier producing any match wins; within a
tier the first record in collection order wins. In particular a tier-1
match anywhere beats a tier-3 match of an earlier record. -/
theorem findWorker_c1_tiers (ws : List Val) (ident : List Char) (r : Option Val)
    (h : findWorkerByIdentifier ws ident = .ok r) : r = resolveSpec ws ident := by
  unfold findWorkerByIdentifier at h
  unfold resolveSpec
  dsimp only at h ⊢
  obtain ⟨o1, h1, h⟩ := bind_eq_ok h
  rw [← scanIds_ok ws _ o1 h1]
  cases o1 with
  | some w =>
      rw [← pure_eq_ok h]
      rfl
  | none =>
      rw [orElse_none]
      obtain ⟨o2, h2, h⟩ := bind_eq_ok h
      rw [← scanNames_ok ws _ o2 h2]
      cases o2 with
      | some w =>
          rw [← pure_eq_ok h]
          rfl
      | none =>
          rw [orElse_none]
          obtain ⟨o3, h3, h⟩ := bind_eq_ok h
          rw [← scanEmails_ok ws _ o3 h3]
          cases o3 with
          | some w =>
              rw [← pure_eq_ok h]
              rfl
          | none =>
              rw [orElse_none]
              exact scanDeep_ok ws _ r h

/-- A record matching only on the email-substring tier for target `o@c`. -/
def resolverExTier3 : Val :=
  vdict [("person".data, vdict [("communication".data,
    vdict [("emails".data, vlist [vdict [("emailUri".data, vstr "jo@co.com".data)]])])])]

/-- A record matching on the exact-identifier tier for target `o@c`. -/
def resolverExTier1 : Val := vdict [("associateOID".data, vstr "O@C".data)]

/-- Witness for C1: with the tier-3-only record listed first, the tier-1
record is still the one returned. -/
theorem findWorker_c1_witness :
    findWorkerByIdentifier [resolverExTier3, resolverExTier1] "o@c".data =
      .ok (some resolverExTier1) ∧
    resolveSpec [resolverExTier3, resolverExTier1] "o@c".data =
      some resolverExTier1 ∧
    matchesTierEmail "o@c".data resolverExTier3 = true ∧
    matchesTierId "o@c".data resolverExTier3 = false ∧
    matchesTierId "o@c".data resolverExTier1 = true :=
  ⟨rfl,
   (findWorker_c1_tiers [resolverExTier3, resolverExTier1] "o@c".data
     (some resolverExTier1) rfl).symm,
   by decide, by decide, by decide⟩

/-! ## C2: hierarchy builder counts -/

/-- The derivable identifier of a record, as the spec reads it: the primary
identifier or the secondary ID-valued fallback, `none` when the expression
is falsy (record excluded) or raises. -/
def derivableId (w : Val) : Option Val :=
  match aoidExpr w with
  | .ok a => if truthy a then some a else none
  | .error _ => none

/-- All derivable identifiers of a collection, in order. -/
def derivedIds (ws : List Val) : List Val := ws.filterMap derivableId

/-- Concatenation of all buckets of a hierarchy mapping. -/
def flattenBuckets : List (Val × List Val) → List Val
  | [] => []
  | kb :: rest => kb.2 ++ flattenBuckets rest

/-- Left fold that keeps the first occurrence of each key. -/
def accDistinct : List Val → List Val → List Val
  | acc, [] => acc
  | acc, k :: ks => accDistinct (if k ∈ acc then acc else acc ++ [k]) ks

theorem flatten_appendBucket (m : List (Val × List Val)) (k w : Val) :
    (flattenBuckets (appendBucket m k w)).Perm (flattenBuckets m ++ [w]) := by
  induction m with
  | nil => simp [appendBucket, flattenBuckets]
  | cons kb rest ih =>
      obtain ⟨k0, ws⟩ := kb
      unfold appendBucket
      by_cases hk : k0 = k
      · rw [if_pos hk]
        simp only [flattenBuckets]
        rw [List.append_assoc, List.append_assoc]
        exact List.Perm.append_left ws List.perm_append_comm
      · rw [if_neg hk]
        simp only [flattenBuckets]
        rw [List.append_assoc]
        exact List.Perm.append_left ws ih

theorem linkPass_perm : ∀ (ws : List Val) (mm0 mm : List (Val × List Val)),
    linkPass ws mm0 = .ok mm →
    (flattenBuckets mm).Perm
      (flattenBuckets mm0 ++ ws.filter (fun w => (derivableId w).isSome)) := by
  intro ws
  induction ws with
  | nil =>
      intro mm0 mm h
      unfold linkPass at h
      cases h
      simp
  | cons w rest ih =>
      intro mm0 mm h
      unfold linkPass at h
      obtain ⟨aoid, h1, h⟩ := bind_eq_ok h
      by_cases ht : truthy aoid = true
      · simp only [ht, Bool.not_true, Bool.false_eq_true, if_false] at h
        obtain ⟨mid, h2, h⟩ := bind_eq_ok h
        have hder : (derivableId w).isSome = true := by
          simp [derivableId, h1, ht]
        have hfil : List.filter (fun x => (derivableId x).isSome) (w :: rest) =
            w :: List.filter (fun x => (derivableId x).isSome) rest := by
          simp [List.filter_cons, hder]
        rw [hfil]
        have step : ∀ key, linkPass rest (appendBucket mm0 key w) = .ok mm →
            (flattenBuckets mm).Perm
              (flattenBuckets mm0 ++
                (w :: rest.filter (fun w => (derivableId w).isSome))) := by
          intro key hlp
          have hperm := ih _ _ hlp
          refine hperm.trans ?_
          refine (List.Perm.append_right _ (flatten_appendBucket mm0 key w)).trans ?_
          rw [List.append_assoc]
          exact List.Perm.refl _
        by_cases hm : truthy mid = true
        · rw [if_pos hm] at h
          exact step mid h
        · simp only [Bool.not_eq_true] at hm
          simp only [hm, Bool.false_eq_true, if_false] at h
          exact step vnull h
      · simp only [Bool.not_eq_true] at ht
        simp only [ht, Bool.not_false, if_true] at h
        have hder : (derivableId w).isSome = false := by
          simp [derivableId, h1, ht]
        have hfil : List.filter (fun x => (derivableId x).isSome) (w :: rest) =
            List.filter (fun x => (derivableId x).isSome) rest := by
          simp [List.filter_cons, hder]
        rw [hfil]
        exact ih _ _ h

theorem updateVal_keys (m : List (Val × Val)) (k v : Val) :
    (updateVal m k v).map (fun kv => kv.1) =
      if k ∈ m.map (fun kv => kv.1) then m.map (fun kv => kv.1)
      else m.map (fun kv => kv.1) ++ [k] := by
  induction m with
  | nil => simp [updateVal]
  | cons kv rest ih =>
      obtain ⟨k0, v0⟩ := kv
      unfold updateVal
      by_cases hk : k0 = k
      · subst hk
        simp
      · rw [if_neg hk]
        simp only [List.map_cons]
        rw [ih]
        have hk' : ¬(k = k0) := fun h => hk h.symm
        by_cases hmem : k ∈ rest.map (fun kv => kv.1)
        · simp [List.mem_cons, hmem]
        · simp [List.mem_cons, hmem, hk']

theorem indexPass_keys : ∀ (ws : List Val) (wm0 wm : List (Val × Val)),
    indexPass ws wm0 = .ok wm →
    wm.map (fun kv => kv.1) =
      accDistinct (wm0.map (fun kv => kv.1)) (derivedIds ws) := by
  intro ws
  induction ws with
  | nil =>
      intro wm0 wm h
      unfold indexPass at h
      cases h
      rfl
  | cons w rest ih =>
      intro wm0 wm h
      unfold indexPass at h
      obtain ⟨aoid, h1, h⟩ := bind_eq_ok h
      by_cases ht : truthy aoid = true
      · rw [if_pos ht] at h
        have hids : derivedIds (w :: rest) = aoid :: derivedIds rest := by
          simp [derivedIds, List.filterMap_cons, derivableId, h1, ht]
        rw [hids]
        unfold accDistinct
        rw [ih _ _ h, updateVal_keys]
      · rw [if_neg ht] at h
        simp only [Bool.not_eq_true] at ht
        have hids : derivedIds (w :: rest) = derivedIds rest := by
          simp [derivedIds, List.filterMap_cons, derivableId, h1, ht]
        rw [hids]
        exact ih _ _ h

theorem accDistinct_nodup_toFinset :
    ∀ (ks acc : List Val), acc.Nodup →
      (accDistinct acc ks).Nodup ∧
      (accDistinct acc ks).toFinset = acc.toFinset ∪ ks.toFinset := by
  intro ks
  induction ks with
  | nil =>
      intro acc h
      exact ⟨h, by simp [accDistinct]⟩
  | cons k rest ih =>
      intro acc h
      unfold accDistinct
      by_cases hmem : k ∈ acc
      · rw [if_pos hmem]
        obtain ⟨n1, n2⟩ := ih acc h
        refine ⟨n1, ?_⟩
        rw [n2, List.toFinset_cons, Finset.union_insert,
          Finset.insert_eq_self.mpr
            (Finset.mem_union_left _ (List.mem_toFinset.mpr hmem))]
      · rw [if_neg hmem]
        have hacc : (acc ++ [k]).Nodup := by
          simp [List.nodup_append, h, hmem]
        obtain ⟨n1, n2⟩ := ih _ hacc
        refine ⟨n1, ?_⟩
        rw [n2]
        ext x
        simp only [Finset.mem_union, List.mem_toFinset, List.mem_append,
          List.mem_singleton, List.mem_cons]
        tauto

theorem flattenBuckets_length (m : List (Val × List Val)) :
    (flattenBuckets m).length = (m.map (fun kb => kb.2.length)).sum := by
  induction m with
  | nil => rfl
  | cons kb rest ih => simp [flattenBuckets, ih]

/-- C2 (amended): for a collection whose build succeeds, the bucket sizes
of the Hierarchy Mapping sum to exactly N−K and the buckets are, as a
multiset, exactly the non-excluded records (each appears in exactly one
bucket, excluded records in none); the Record Index has one entry per
DISTINCT derivable identifier — which equals N−K exactly when the
derivable identifiers are pairwise distinct. -/
theorem buildOrg_c2_amended :
    ∀ (ws : List Val) (mm : List (Val × List Val)) (wm : List (Val × Val)),
      buildOrgHierarchy ws = .ok (mm, wm) →
      (flattenBuckets mm).Perm (ws.filter (fun w => (derivableId w).isSome)) ∧
      (mm.map (fun kb => kb.2.length)).sum =
        (ws.filter (fun w => (derivableId w).isSome)).length ∧
      wm.length = (derivedIds ws).dedup.length ∧
      ((derivedIds ws).Nodup → wm.length = (derivedIds ws).length) := by
  intro ws mm wm h
  unfold buildOrgHierarchy at h
  obtain ⟨wm0, h1, h⟩ := bind_eq_ok h
  obtain ⟨mm0, h2, h⟩ := bind_eq_ok h
  have hpair := pure_eq_ok h
  injection hpair with hL hR
  subst hL
  subst hR
  have hperm : (flattenBuckets mm0).Perm
      (ws.filter (fun w => (derivableId w).isSome)) := by
    have := linkPass_perm ws [] mm0 h2
    simpa [flattenBuckets] using this
  have hkeys := indexPass_keys ws [] wm0 h1
  simp only [List.map_nil] at hkeys
  have hacc := accDistinct_nodup_toFinset (derivedIds ws) [] (by simp)
  have hlen : wm0.length = (derivedIds ws).dedup.length := by
    have hmaplen : wm0.length = (wm0.map (fun kv => kv.1)).length := by simp
    rw [hmaplen, hkeys]
    have hcard := List.toFinset_card_of_nodup hacc.1
    rw [← hcard, hacc.2]
    simp [List.card_toFinset]
  refine ⟨hperm, ?_, hlen, ?_⟩
  · rw [← flattenBuckets_length, hperm.length_eq]
  · intro hnd
    rw [hlen, List.dedup_eq_self.mpr hnd]

/-- A record with identifier `a1`. -/
def dupRecA : Val := vdict [("associateOID".data, vstr "a1".data)]

/-- A different record with the same identifier `a1`. -/
def dupRecB : Val :=
  vdict [("associateOID".data, vstr "a1".data), ("x".data, vstr "y".data)]

/-- The claim behind C2, as stated, is refuted by two records sharing one
identifier: N−K = 2 but the Record Index has a single entry (the second
record overwrites the first), while the bucket sizes still sum to 2. -/
theorem buildOrg_c2_counterexample :
    buildOrgHierarchy [dupRecA, dupRecB] =
      .ok ([(vnull, [dupRecA, dupRecB])], [(vstr "a1".data, dupRecB)]) ∧
    ([dupRecA, dupRecB].filter (fun w => (derivableId w).isSome)).length = 2 ∧
    ([(vstr "a1".data, dupRecB)] : List (Val × Val)).length = 1 ∧
    (1 : Nat) ≠ 2 :=
  ⟨rfl, by decide, rfl, by decide⟩

/-- Witness for C2 (amended) at a one-record collection with a distinct id. -/
theorem buildOrg_c2_witness :
    (flattenBuckets [(vnull, [dupRecA])]).Perm
      ([dupRecA].filter (fun w => (derivableId w).isSome)) ∧
    ([(vnull, [dupRecA])].map (fun kb => kb.2.length)).sum =
      ([dupRecA].filter (fun w => (derivableId w).isSome)).length ∧
    ([(vstr "a1".data, dupRecA)] : List (Val × Val)).length =
      (derivedIds [dupRecA]).length := by
  have h := buildOrg_c2_amended [dupRecA] [(vnull, [dupRecA])]
    [(vstr "a1".data, dupRecA)] rfl
  exact ⟨h.1, h.2.1, h.2.2.2 (by decide)⟩

/-! ## C3: manager-reference extraction -/

/-- The person-path identifier of a reference dict, as the spec reads it:
unwrap a list-shaped person to its first element and take its
`associateOID` when it is an object. -/
def personStepId (rt : List (List Char × Val)) : Val :=
  let person0 := (lookupStr rt "person".data).getD vnull
  let person := match person0 with
    | vlist (x :: _) => x
    | vlist [] => vdict []
    | _ => person0
  match person with
  | vdict pkvs => (lookupStr pkvs "associateOID".data).getD vnull
  | _ => vnull

/-- C3: manager-reference extraction reads only the first assignment
structure; it returns nothing when the assignment list is empty/falsy or
the reference field is absent/falsy; a list-shaped reference is unwrapped
to its first element; and the tiers are tried in order: the nested person
object primary identifier (list-shaped person unwrapped), an identifier
directly on the reference, then the position fallback accepting a plain
string or an object with a value field. -/
theorem extractMgr_c3_spec :
    (∀ kvs : List (List Char × Val),
      (∀ v, lookupStr kvs "workAssignments".data = some v → truthy v = false) →
      mgrIdOfWorker (vdict kvs) = .ok vnull) ∧
    (∀ (kvs : List (List Char × Val)) (a : Val) (rest : List Val),
      lookupStr kvs "workAssignments".data = some (vlist (a :: rest)) →
      mgrIdOfWorker (vdict kvs) = extractMgrFromWA a) ∧
    (∀ wa : List (List Char × Val),
      (∀ v, lookupStr wa "reportsTo".data = some v → truthy v = false) →
      extractMgrFromWA (vdict wa) = .ok vnull) ∧
    (∀ (wa : List (List Char × Val)) (x : Val) (xs : List Val),
      lookupStr wa "reportsTo".data = some (vlist (x :: xs)) →
      extractMgrFromWA (vdict wa) = mgrFromReportsTo (pyOr x (vdict []))) ∧
    (∀ rt : List (List Char × Val),
      truthy (personStepId rt) = true →
      mgrFromReportsTo (vdict rt) = .ok (personStepId rt)) ∧
    (∀ (rt : List (List Char × Val)) (v : Val),
      truthy (personStepId rt) = false →
      lookupStr rt "associateOID".data = some v → truthy v = true →
      mgrFromReportsTo (vdict rt) = .ok v) ∧
    (∀ (rt : List (List Char × Val)) (s : List Char),
      truthy (personStepId rt) = false →
      (∀ v, lookupStr rt "associateOID".data = some v → truthy v = false) →
      lookupStr rt "positionID".data = some (vstr s) →
      mgrFromReportsTo (vdict rt) = .ok (vstr s)) ∧
    (∀ (rt pk : List (List Char × Val)),
      truthy (personStepId rt) = false →
      (∀ v, lookupStr rt "associateOID".data = some v → truthy v = false) →
      lookupStr rt "positionID".data = some (vdict pk) →
      mgrFromReportsTo (vdict rt) =
        .ok (pyOr ((lookupStr pk "idValue".data).getD vnull)
                  ((lookupStr pk "positionID".data).getD vnull))) := by
  have hbody : ∀ rt : List (List Char × Val),
      mgrFromReportsTo (vdict rt) =
        (if truthy (personStepId rt) = true then .ok (personStepId rt)
         else
          let assoc := (lookupStr rt "associateOID".data).getD vnull
          if truthy assoc = true then .ok assoc
          else
            match (lookupStr rt "positionID".data).getD vnull with
            | vdict pk =>
                .ok (pyOr ((lookupStr pk "idValue".data).getD vnull)
                          ((lookupStr pk "positionID".data).getD vnull))
            | vstr s => .ok (vstr s)
            | _ => .ok vnull) := by
    intro rt
    unfold mgrFromReportsTo personStepId
    simp only [pyGet, pyGetD]
    cases hp : (lookupStr rt "person".data).getD vnull with
    | vlist xs =>
        cases xs with
        | nil => cases hpos : (lookupStr rt "positionID".data).getD vnull <;> rfl
        | cons x ps =>
            cases x <;> cases hpos : (lookupStr rt "positionID".data).getD vnull <;>
              rfl
    | vdict pkvs => cases hpos : (lookupStr rt "positionID".data).getD vnull <;> rfl
    | vnull => cases hpos : (lookupStr rt "positionID".data).getD vnull <;> rfl
    | vbool b => cases hpos : (lookupStr rt "positionID".data).getD vnull <;> rfl
    | vint n => cases hpos : (lookupStr rt "positionID".data).getD vnull <;> rfl
    | vstr s => cases hpos : (lookupStr rt "positionID".data).getD vnull <;> rfl
  refine ⟨?_, ?_, ?_, ?_, ?_, ?_, ?_, ?_⟩
  · intro kvs hfal
    unfold mgrIdOfWorker
    simp only [pyGetD]
    cases hl : lookupStr kvs "workAssignments".data with
    | none => rfl
    | some v =>
        have hv := hfal v hl
        have h0 : truthy (vlist ([] : List Val)) = false := rfl
        simp only [Option.getD_some, ebind_ok, pyOr, hv, Bool.false_eq_true,
          if_false, h0]
        rfl
  · intro kvs a rest hl
    unfold mgrIdOfWorker
    simp [pyGetD, hl, Option.getD_some, ebind_ok, pyOr, truthy, pyIndex0]
  · intro wa hfal
    unfold extractMgrFromWA
    simp only [pyGet, pyGetD]
    cases hl : lookupStr wa "reportsTo".data with
    | none => rfl
    | some v =>
        have hv := hfal v hl
        simp only [Option.getD_some, ebind_ok, hv, Bool.not_false]
        rfl
  · intro wa x xs hl
    unfold extractMgrFromWA
    simp [pyGet, pyGetD, hl, ebind_ok, truthy]
  · intro rt hpv
    rw [hbody rt, if_pos hpv]
  · intro rt v hpv hl hv
    rw [hbody rt, if_neg (by rw [hpv]; simp), hl]
    simp only [Option.getD]
    rw [if_pos hv]
  · intro rt s hpv hfal hl
    rw [hbody rt, if_neg (by rw [hpv]; simp)]
    cases ha : lookupStr rt "associateOID".data with
    | none => simp [hl, truthy]
    | some v =>
        have hv := hfal v ha
        simp [hl, hv]
  · intro rt pk hpv hfal hl
    rw [hbody rt, if_neg (by rw [hpv]; simp)]
    cases ha : lookupStr rt "associateOID".data with
    | none => simp [hl, truthy]
    | some v =>
        have hv := hfal v ha
        simp [hl, hv]

/-- A concrete assignment structure for the C3 witness. -/
def waEx : Val :=
  vdict [("reportsTo".data, vdict [("associateOID".data, vstr "M2".data)])]

/-- Reference dict carrying both a person-level and a direct identifier. -/
def rtBoth : List (List Char × Val) :=
  [("person".data, vdict [("associateOID".data, vstr "M1".data)]),
   ("associateOID".data, vstr "M2".data)]

/-- Witness for C3 at concrete records: no assignments yields nothing, only
the first assignment is read, the person identifier beats the direct one,
and the plain-string position fallback is accepted. -/
theorem extractMgr_c3_witness :
    mgrIdOfWorker (vdict []) = .ok vnull ∧
    mgrIdOfWorker (vdict [("workAssignments".data, vlist [waEx, vnull])]) =
      extractMgrFromWA waEx ∧
    mgrFromReportsTo (vdict rtBoth) = .ok (vstr "M1".data) ∧
    mgrFromReportsTo (vdict [("positionID".data, vstr "P1".data)]) =
      .ok (vstr "P1".data) := by
  obtain ⟨ha, hb, hc, hd, he, hf, hg, hh⟩ := extractMgr_c3_spec
  refine ⟨?_, ?_, ?_, ?_⟩
  · exact ha [] (fun v hv => by simp [lookupStr] at hv)
  · exact hb [("workAssignments".data, vlist [waEx, vnull])] waEx [vnull] rfl
  · exact (he rtBoth (by decide)).trans (congrArg Except.ok (by decide))
  · exact hg [("positionID".data, vstr "P1".data)] "P1".data (by decide)
      (fun v hv => by simp [lookupStr] at hv) rfl

/-! ## C7: name extraction -/

/-- The name extractor exactly as claim C7 words it: the preformatted
display name when present and truthy, else given-name and family-name
joined with a single space and trimmed. -/
def claimNameOf (legal : List (List Char × Val)) : Val :=
  let fmt := (lookupStr legal "formattedName".data).getD vnull
  if truthy fmt then fmt
  else
    let g := pyStr ((lookupStr legal "givenName".data).getD (vstr []))
    let f := pyStr ((lookupStr legal "familyName".data).getD (vstr []))
    vstr (trimL (g ++ (" ".data ++ f)))

/-- Wrap a legal-name dict into a worker record. -/
def wrapLegal (legal : List (List Char × Val)) : Val :=
  vdict [("person".data, vdict [("legalName".data, vdict legal)])]

/-- Legal dict with given and family names but no display name. -/
def legalJo : List (List Char × Val) :=
  [("givenName".data, vstr "Jo".data), ("familyName".data, vstr "Smith".data),
   ("familyName1".data, vstr "Smith".data)]

/-- The same legal dict plus a preformatted display name. -/
def legalJoFmt : List (List Char × Val) :=
  ("formattedName".data, vstr "Dr. Jo Smith".data) :: legalJo

/-- The claim behind C7, as stated, fails against both name extractors:
the sync-path extractor formats the fallback as `family, given` (comma,
swapped order), and the resolver-path extractor ignores the preformatted
display name. -/
theorem name_c7_counterexample :
    workerFullName (wrapLegal legalJo) = .ok (vstr "Smith, Jo".data) ∧
    claimNameOf legalJo = vstr "Jo Smith".data ∧
    "Smith, Jo".data ≠ "Jo Smith".data ∧
    getFullName (wrapLegal legalJoFmt) = .ok "Jo Smith".data ∧
    claimNameOf legalJoFmt = vstr "Dr. Jo Smith".data ∧
    "Jo Smith".data ≠ "Dr. Jo Smith".data :=
  ⟨rfl, by decide, by decide, rfl, by decide, by decide⟩

theorem pyOr_dict_nil (l : List (List Char × Val)) :
    pyOr (vdict l) (vdict []) = vdict l := by
  cases l with
  | nil => rfl
  | cons kv rest => rfl

/-- C7 (amended): the sync-path extractor returns the raw `formattedName`
when present and truthy, and otherwise `familyName1` and `givenName` —
each coerced to the empty string when absent or falsy, per
`legal.get(key, "") or ""` — joined as `family, given` with surrounding
commas/spaces stripped; the resolver-path extractor always joins the
stripped `givenName` and `familyName` with one space and trims, and has
no display-name preference. -/
theorem name_c7_amended :
    (∀ (legal : List (List Char × Val)) (fmt : Val),
      lookupStr legal "formattedName".data = some fmt → truthy fmt = true →
      workerFullName (wrapLegal legal) = .ok fmt) ∧
    (∀ legal : List (List Char × Val),
      (∀ v, lookupStr legal "formattedName".data = some v → truthy v = false) →
      workerFullName (wrapLegal legal) =
        .ok (vstr (stripBoth ", ".data
          ((pyStr (pyOr ((lookupStr legal "familyName1".data).getD (vstr []))
              (vstr [])) ++
            ", ".data) ++
           pyStr (pyOr ((lookupStr legal "givenName".data).getD (vstr []))
              (vstr [])))))) ∧
    (∀ (legal : List (List Char × Val)) (g f : List Char),
      (lookupStr legal "givenName".data).getD vnull = vstr g →
      (lookupStr legal "familyName".data).getD vnull = vstr f →
      getFullName (wrapLegal legal) =
        .ok (trimL (trimL g ++ (" ".data ++ trimL f)))) := by
  refine ⟨?_, ?_, ?_⟩
  · intro legal fmt hl ht
    unfold workerFullName wrapLegal
    simp only [pyGetD, ebind_ok, Option.getD_some]
    simp only [show (lookupStr [("person".data,
        vdict [("legalName".data, vdict legal)])] "person".data).getD
        (vdict []) = vdict [("legalName".data, vdict legal)] from rfl]
    simp only [show pyOr (vdict [("legalName".data, vdict legal)]) (vdict []) =
      vdict [("legalName".data, vdict legal)] from rfl]
    simp only [show (lookupStr [("legalName".data, vdict legal)]
        "legalName".data).getD (vdict []) = vdict legal from rfl]
    simp only [pyOr_dict_nil, pyIn, pyItem, ebind_ok, hl, ht]
    rfl
  · intro legal hfal
    unfold workerFullName wrapLegal
    simp only [pyGetD, ebind_ok, Option.getD_some]
    simp only [show (lookupStr [("person".data,
        vdict [("legalName".data, vdict legal)])] "person".data).getD
        (vdict []) = vdict [("legalName".data, vdict legal)] from rfl]
    simp only [show pyOr (vdict [("legalName".data, vdict legal)]) (vdict []) =
      vdict [("legalName".data, vdict legal)] from rfl]
    simp only [show (lookupStr [("legalName".data, vdict legal)]
        "legalName".data).getD (vdict []) = vdict legal from rfl]
    simp only [pyOr_dict_nil, pyIn, ebind_ok]
    cases hl : lookupStr legal "formattedName".data with
    | none =>
        simp only [hl, Option.isSome_none, Bool.false_eq_true, if_false,
          ebind_ok]
        rfl
    | some v =>
        have hv := hfal v hl
        simp only [hl, Option.isSome_some, if_true, pyItem, ebind_ok, hv,
          Bool.false_eq_true, if_false]
        rfl
  · intro legal g f hg hf
    unfold getFullName wrapLegal
    simp only [pyGetD, pyGet, ebind_ok, Option.getD_some]
    simp only [show (lookupStr [("person".data,
        vdict [("legalName".data, vdict legal)])] "person".data).getD
        (vdict []) = vdict [("legalName".data, vdict legal)] from rfl]
    simp only [show pyOr (vdict [("legalName".data, vdict legal)]) (vdict []) =
      vdict [("legalName".data, vdict legal)] from rfl]
    simp only [show (lookupStr [("legalName".data, vdict legal)]
        "legalName".data).getD (vdict []) = vdict legal from rfl]
    simp only [pyOr_dict_nil, hg, hf, ebind_ok]
    cases g with
    | nil => cases f with
      | nil => rfl
      | cons c cs => rfl
    | cons c cs => cases f with
      | nil => rfl
      | cons d ds => rfl

/-- Legal dict with a present-but-falsy given name (`givenName: None`):
the `or ""` coercion makes the fallback render just the family name. -/
def legalNoneJo : List (List Char × Val) :=
  [("givenName".data, vnull), ("familyName1".data, vstr "Smith".data)]

/-- Witness for C7 (amended) at concrete legal dicts, including a
present-but-falsy `givenName` that the `or ""` coercion blanks out. -/
theorem name_c7_witness :
    workerFullName (wrapLegal legalJoFmt) = .ok (vstr "Dr. Jo Smith".data) ∧
    workerFullName (wrapLegal legalJo) = .ok (vstr "Smith, Jo".data) ∧
    workerFullName (wrapLegal legalNoneJo) = .ok (vstr "Smith".data) ∧
    getFullName (wrapLegal legalJo) = .ok "Jo Smith".data := by
  obtain ⟨h1, h2, h3⟩ := name_c7_amended
  refine ⟨h1 legalJoFmt (vstr "Dr. Jo Smith".data) rfl (by decide), ?_, ?_, ?_⟩
  · exact (h2 legalJo (fun v hv => by simp [legalJo, lookupStr] at hv)).trans
      (congrArg Except.ok (by decide))
  · exact (h2 legalNoneJo
      (fun v hv => by simp [legalNoneJo, lookupStr] at hv)).trans
      (congrArg Except.ok (by decide))
  · exact (h3 legalJo "Jo".data "Smith".data rfl rfl).trans
      (congrArg Except.ok (by decide))

/-! ## C5: extractors and raising -/

/-- Whether an embedded computation returned normally. -/
def exOk {α : Type} : Except PyErr α → Bool
  | .ok _ => true
  | .error _ => false

/-- Shape test for dicts. -/
def isDictV : Val → Bool
  | vdict _ => true
  | _ => false

/-- A value that is falsy or a string (safe for `.strip()` after `or ""`). -/
def strOrFalsy (v : Val) : Bool :=
  !truthy v || (match v with | vstr _ => true | _ => false)

/-- A value that is falsy or a dict (safe for `.get` after `or` a dict). -/
def dictOrFalsy (v : Val) : Bool := !truthy v || isDictV v

/-- Total dict lookup with `None` default. -/
def lkD (l : List (List Char × Val)) (k : List Char) : Val :=
  (lookupStr l k).getD vnull

/-- A value whose string form survives `_clean_email` (falsy, or no
angle-bracket pathology). -/
def emailValOk (v : Val) : Bool := !truthy v || okClean (pyStr v)

/-- Field safe to feed to `_clean_email` when present. -/
def keyFieldOk (l : List (List Char × Val)) (k : List Char) : Bool :=
  match lookupStr l k with
  | some v => emailValOk v
  | none => true

/-- The alias chain of `extract_email` on one email object, as a value. -/
def rawOf (l : List (List Char × Val)) : Val :=
  pyOr (pyOr (pyOr (lkD l "emailUri".data) (lkD l "uri".data))
    (lkD l "email".data)) (lkD l "value".data)

/-- A well-formed email object: a dict whose alias chain is clean-safe
(non-dicts are skipped by the loop and need no constraint). -/
def eobjOk (x : Val) : Bool :=
  match x with
  | vdict l => emailValOk (rawOf l)
  | _ => true

/-- The emails field of a communication dict as seen by `extract_email`. -/
def emailsFieldOk (e : Val) : Bool :=
  match e with
  | vdict l => emailValOk (rawOf l)
  | vlist xs => xs.all eobjOk
  | _ => true

/-- A value that, when truthy, is a list headed by a dict (safe for
`emails[0].get(...)`). -/
def headDictList (v : Val) : Bool :=
  !truthy v || (match v with | vlist (vdict _ :: _) => true | _ => false)

/-- Well-formed communication dict for the scanning extractor. -/
def wfCommScan (c : Val) : Bool :=
  match c with
  | vdict l =>
      emailsFieldOk (pyOr (pyOr (lkD l "emails".data) (lkD l "email".data))
        (vlist []))
  | _ => true

/-- Well-formed communication dict for the indexing extractors. -/
def wfEmailsIndex (c : Val) : Bool :=
  match c with
  | vdict l => headDictList (pyOr (lkD l "emails".data) (vlist []))
  | _ => true

/-- Well-formed legal-name structure. -/
def wfLegal (v : Val) : Bool :=
  dictOrFalsy v &&
  (match v with
   | vdict l =>
       strOrFalsy (lkD l "givenName".data) && strOrFalsy (lkD l "familyName".data)
   | _ => true)

/-- Well-formed person structure. -/
def wfPerson (p : Val) : Bool :=
  match p with
  | vdict l =>
      wfLegal (lkD l "legalName".data) &&
      dictOrFalsy (lkD l "communications".data) &&
      dictOrFalsy (lkD l "communication".data) &&
      wfCommScan (if truthy (lkD l "communications".data) then
          lkD l "communications".data
        else if truthy (lkD l "communication".data) then
          lkD l "communication".data
        else vdict []) &&
      wfEmailsIndex (pyOr (lkD l "communication".data) (vdict [])) &&
      keyFieldOk l "email".data && keyFieldOk l "emailAddress".data
  | _ => true

/-- Well-formed assignment list: falsy, or a list headed by a dict. -/
def wfWAssign (wa : Val) : Bool :=
  !truthy wa || (match wa with | vlist (vdict _ :: _) => true | _ => false)

/-- Well-formed business-communication structure. -/
def wfBC (bc : Val) : Bool :=
  dictOrFalsy bc &&
  (match bc with
   | vdict l => headDictList (pyOr (lkD l "emails".data) (vlist []))
   | _ => true)

/-- Well-formed record: a dict whose substructures, where present, have
the shapes the extractors leave unguarded, and whose email-like fields
are clean-safe. -/
def wfRecord (w : Val) : Bool :=
  match w with
  | vdict l =>
      dictOrFalsy (lkD l "workerID".data) &&
      dictOrFalsy (lkD l "person".data) &&
      wfPerson (pyOr (lkD l "person".data) (vdict [])) &&
      keyFieldOk l "workEmail".data && keyFieldOk l "email".data &&
      keyFieldOk l "emailAddress".data &&
      wfWAssign (pyOr (lkD l "workAssignments".data) (vlist [])) &&
      wfBC (pyOr (lkD l "businessCommunication".data) (vdict []))
  | _ => false

theorem pyOr_dict {v : Val} (h : dictOrFalsy v = true) :
    ∃ dl, pyOr v (vdict []) = vdict dl := by
  by_cases hv : truthy v = true
  · unfold dictOrFalsy isDictV at h
    rw [hv] at h
    simp only [Bool.not_true, Bool.false_or] at h
    cases v with
    | vdict kvs => exact ⟨kvs, by unfold pyOr; rw [if_pos hv]⟩
    | vnull => cases h
    | vbool b => cases h
    | vint n => cases h
    | vstr s => cases h
    | vlist xs => cases h
  · exact ⟨[], by unfold pyOr; rw [if_neg hv]⟩

theorem pyOr_str {v : Val} (h : strOrFalsy v = true) :
    ∃ s, pyOr v (vstr []) = vstr s := by
  by_cases hv : truthy v = true
  · unfold strOrFalsy at h
    rw [hv] at h
    simp only [Bool.not_true, Bool.false_or] at h
    cases v with
    | vstr s => exact ⟨s, by unfold pyOr; rw [if_pos hv]⟩
    | vnull => cases h
    | vbool b => cases h
    | vint n => cases h
    | vlist xs => cases h
    | vdict kvs => cases h
  · exact ⟨[], by unfold pyOr; rw [if_neg hv]⟩

theorem exOk_ite {α : Type} {c : Prop} [Decidable c] {a b : Except PyErr α}
    (ha : exOk a = true) (hb : exOk b = true) :
    exOk (if c then a else b) = true := by
  split
  · exact ha
  · exact hb

theorem exOk_bind {α β : Type} {a : Except PyErr α} {f : α → Except PyErr β}
    (ha : exOk a = true) (hf : ∀ x, a = .ok x → exOk (f x) = true) :
    exOk (a >>= f) = true := by
  cases a with
  | ok x => rw [ebind_ok]; exact hf x rfl
  | error e => exact Bool.noConfusion ha

theorem cleanEmailS_isOk {s : List Char} (h : okClean s = true) :
    exOk (cleanEmailS s) = true := by
  unfold okClean at h
  unfold cleanEmailS
  revert h
  dsimp only
  generalize mailtoStep (toLowerL (trimL s)) = t
  intro h
  simp only [Bool.not_eq_true'] at h
  split
  · rename_i hg1
    split
    · split <;> rfl
    · rename_i hrest
      exfalso
      rw [hg1, Bool.eq_false_iff.mpr hrest] at h
      simp at h
  · rfl

theorem cleanEmailV_isOk {v : Val} (h : emailValOk v = true) :
    exOk (cleanEmailV v) = true := by
  unfold cleanEmailV
  by_cases ht : truthy v = true
  · rw [if_pos ht]
    unfold emailValOk at h
    rw [ht] at h
    simp only [Bool.not_true, Bool.false_or] at h
    have hok := cleanEmailS_isOk h
    cases hc : cleanEmailS (pyStr v) with
    | ok r => rfl
    | error e => rw [hc] at hok; exact Bool.noConfusion hok
  · rw [if_neg ht]
    rfl

theorem rawEmailOf_dict (l : List (List Char × Val)) :
    rawEmailOf (vdict l) = .ok (rawOf l) := rfl

theorem firstEmailFromList_isOk : ∀ xs : List Val, xs.all eobjOk = true →
    exOk (firstEmailFromList xs) = true := by
  intro xs
  induction xs with
  | nil => intro h; rfl
  | cons x rest ih =>
      intro h
      simp only [List.all_cons, Bool.and_eq_true] at h
      unfold firstEmailFromList
      cases x with
      | vdict dl =>
          refine exOk_bind (by rw [rawEmailOf_dict]; rfl) (fun raw hraw => ?_)
          have hr : raw = rawOf dl := by
            rw [rawEmailOf_dict] at hraw
            exact (Except.ok.inj hraw).symm
          subst hr
          refine exOk_bind (cleanEmailV_isOk ?_) (fun c hc => ?_)
          · have := h.1
            unfold eobjOk at this
            exact this
          · cases c with
            | some s => exact exOk_ite rfl (ih h.2)
            | none => exact ih h.2
      | vnull => exact ih h.2
      | vbool b => exact ih h.2
      | vint n => exact ih h.2
      | vstr s => exact ih h.2
      | vlist xs2 => exact ih h.2

theorem fallbackEmail_isOk :
    ∀ (keys : List (List Char)) (kvs : List (List Char × Val)),
      (∀ k ∈ keys, keyFieldOk kvs k = true) →
      exOk (fallbackEmail (vdict kvs) keys) = true := by
  intro keys
  induction keys with
  | nil => intro kvs h; rfl
  | cons k rest ih =>
      intro kvs h
      unfold fallbackEmail
      refine exOk_bind rfl (fun b hb => ?_)
      have hbv : b = (lookupStr kvs k).isSome := by
        unfold pyIn at hb
        exact (Except.ok.inj hb).symm
      by_cases hbt : b = true
      · rw [if_pos hbt]
        obtain ⟨v0, hv0⟩ := Option.isSome_iff_exists.mp (hbv ▸ hbt)
        refine exOk_bind (by simp only [pyItem, hv0]; rfl) (fun v hv => ?_)
        have hveq : v = v0 := by
          simp only [pyItem, hv0] at hv
          exact (Except.ok.inj hv).symm
        subst hveq
        refine exOk_bind (cleanEmailV_isOk ?_) (fun c hc => ?_)
        · have := h k (List.mem_cons_self k rest)
          unfold keyFieldOk at this
          rw [hv0] at this
          exact this
        · cases c with
          | some s =>
              exact exOk_ite rfl (ih kvs (fun k2 hk2 => h k2 (List.mem_cons_of_mem _ hk2)))
          | none => exact ih kvs (fun k2 hk2 => h k2 (List.mem_cons_of_mem _ hk2))
      · rw [if_neg hbt]
        exact ih kvs (fun k2 hk2 => h k2 (List.mem_cons_of_mem _ hk2))

theorem pyOr_getD_dict (o : Option Val) :
    pyOr (o.getD (vdict [])) (vdict []) = pyOr (o.getD vnull) (vdict []) := by
  cases o with
  | none => rfl
  | some v => rfl

theorem pyOr_dict_cases {v : Val} {dl : List (List Char × Val)}
    (he : pyOr v (vdict []) = vdict dl) : v = vdict dl ∨ dl = [] := by
  unfold pyOr at he
  by_cases hv : truthy v = true
  · rw [if_pos hv] at he
    exact Or.inl he
  · rw [if_neg hv] at he
    injection he with h
    exact Or.inr h.symm

theorem wfLegal_fields {v : Val} {ll : List (List Char × Val)}
    (h : wfLegal v = true) (he : pyOr v (vdict []) = vdict ll) :
    strOrFalsy (lkD ll "givenName".data) = true ∧
    strOrFalsy (lkD ll "familyName".data) = true := by
  rcases pyOr_dict_cases he with hv | hnil
  · subst hv
    unfold wfLegal at h
    simp only [Bool.and_eq_true] at h
    exact h.2
  · subst hnil
    exact ⟨rfl, rfl⟩

theorem pyStrip_or_isOk {v : Val} (h : strOrFalsy v = true) :
    exOk (pyStrip (pyOr v (vstr []))) = true := by
  obtain ⟨s, hs⟩ := pyOr_str h
  rw [hs]
  rfl

theorem getFullName_isOk (l : List (List Char × Val))
    (hp : dictOrFalsy (lkD l "person".data) = true)
    (hwp : wfPerson (pyOr (lkD l "person".data) (vdict [])) = true) :
    exOk (getFullName (vdict l)) = true := by
  obtain ⟨pl, hpl⟩ := pyOr_dict hp
  rw [hpl] at hwp
  unfold lkD at hpl
  unfold wfPerson at hwp
  simp only [Bool.and_eq_true] at hwp
  unfold getFullName
  refine exOk_bind rfl (fun p0 hp0 => ?_)
  have hp0v : p0 = (lookupStr l "person".data).getD (vdict []) := by
    simp only [pyGetD] at hp0
    exact (Except.ok.inj hp0).symm
  subst hp0v
  rw [pyOr_getD_dict, hpl]
  refine exOk_bind rfl (fun l0 hl0 => ?_)
  have hl0v : l0 = (lookupStr pl "legalName".data).getD (vdict []) := by
    simp only [pyGetD] at hl0
    exact (Except.ok.inj hl0).symm
  subst hl0v
  obtain ⟨⟨⟨⟨⟨⟨hwl, hc1⟩, hc2⟩, hcs⟩, hei⟩, hke1⟩, hke2⟩ := hwp
  have hdl : dictOrFalsy (lkD pl "legalName".data) = true := by
    unfold wfLegal at hwl
    simp only [Bool.and_eq_true] at hwl
    exact hwl.1
  obtain ⟨ll, hll⟩ := pyOr_dict hdl
  unfold lkD at hll
  rw [pyOr_getD_dict, hll]
  obtain ⟨hg, hf⟩ := wfLegal_fields hwl (by unfold lkD; exact hll)
  unfold lkD at hg hf
  refine exOk_bind rfl (fun g hgv => ?_)
  have hgv2 : g = (lookupStr ll "givenName".data).getD vnull := by
    simp only [pyGet, pyGetD] at hgv
    exact (Except.ok.inj hgv).symm
  subst hgv2
  refine exOk_bind (pyStrip_or_isOk hg) (fun first hfirst => ?_)
  refine exOk_bind rfl (fun f hfv => ?_)
  have hfv2 : f = (lookupStr ll "familyName".data).getD vnull := by
    simp only [pyGet, pyGetD] at hfv
    exact (Except.ok.inj hfv).symm
  subst hfv2
  refine exOk_bind (pyStrip_or_isOk hf) (fun last hlast => ?_)
  rfl

theorem ebind_pure {α β : Type} (a : α) (f : α → Except PyErr β) :
    ((pure a : Except PyErr α) >>= f) = f a := rfl

theorem pyOr_getD_list (o : Option Val) :
    pyOr (o.getD (vlist [])) (vlist []) = pyOr (o.getD vnull) (vlist []) := by
  cases o with
  | none => rfl
  | some v => rfl

theorem pyOr_of_truthy {a : Val} (b : Val) (h : truthy a = true) :
    pyOr a b = a := by
  unfold pyOr
  rw [if_pos h]

theorem pyOr_of_falsy {a : Val} (b : Val) (h : truthy a = false) :
    pyOr a b = b := by
  unfold pyOr
  rw [if_neg (by rw [h]; exact Bool.false_ne_true)]

theorem dictOrFalsy_pyOr {X : Val}
    (h : dictOrFalsy (pyOr X (vdict [])) = true) : dictOrFalsy X = true := by
  by_cases hx : truthy X = true
  · rw [pyOr_of_truthy _ hx] at h
    exact h
  · unfold dictOrFalsy
    rw [Bool.eq_false_iff.mpr hx]
    rfl

theorem customIds_isOk :
    ∀ (keys : List (List Char)) (kvs : List (List Char × Val)),
      exOk (customIds (vdict kvs) keys) = true := by
  intro keys
  induction keys with
  | nil => intro kvs; rfl
  | cons k rest ih =>
      intro kvs
      unfold customIds
      refine exOk_bind rfl (fun b hb => ?_)
      have hbv : b = (lookupStr kvs k).isSome := by
        unfold pyIn at hb
        exact (Except.ok.inj hb).symm
      by_cases hbt : b = true
      · rw [if_pos hbt]
        obtain ⟨v0, hv0⟩ := Option.isSome_iff_exists.mp (hbv ▸ hbt)
        refine exOk_bind (by simp only [pyItem, hv0]; rfl) (fun v hv => ?_)
        exact exOk_bind (ih kvs) (fun more _ => rfl)
      · rw [if_neg hbt]
        exact ih kvs

theorem candidateIds_isOk (l : List (List Char × Val))
    (hwid : dictOrFalsy (lkD l "workerID".data) = true) :
    exOk (candidateIds (vdict l)) = true := by
  unfold candidateIds
  refine exOk_bind rfl (fun aoid _ => ?_)
  refine exOk_bind rfl (fun wid0 hwid0 => ?_)
  have hw : wid0 = lkD l "workerID".data := by
    simp only [pyGet, pyGetD] at hwid0
    unfold lkD
    exact (Except.ok.inj hwid0).symm
  subst hw
  obtain ⟨wl, hwl⟩ := pyOr_dict hwid
  refine exOk_bind (by rw [hwl]; rfl) (fun wid _ => ?_)
  exact exOk_bind (customIds_isOk _ _) (fun ids3 _ => rfl)

theorem mgrFromReportsTo_isOk : ∀ rt : Val,
    exOk (mgrFromReportsTo rt) = true := by
  intro rt
  cases rt with
  | vdict rkvs =>
      unfold mgrFromReportsTo
      refine exOk_bind rfl (fun person0 _ => ?_)
      refine exOk_bind ?_ (fun assocP _ => ?_)
      · cases person0 with
        | vlist xs =>
            cases xs with
            | nil => rfl
            | cons x ps => cases x <;> rfl
        | vnull => rfl
        | vbool b => rfl
        | vint n => rfl
        | vstr s => rfl
        | vdict pkvs => rfl
      · refine exOk_ite rfl ?_
        refine exOk_bind rfl (fun u _ => ?_)
        refine exOk_bind rfl (fun assoc _ => ?_)
        refine exOk_ite rfl ?_
        refine exOk_bind rfl (fun u2 _ => ?_)
        refine exOk_bind rfl (fun position _ => ?_)
        cases position with
        | vdict pk =>
            exact exOk_bind rfl (fun idv _ => exOk_bind rfl (fun pid _ => rfl))
        | vnull => rfl
        | vbool b => rfl
        | vint n => rfl
        | vstr s => rfl
        | vlist xs => rfl
  | vnull => rfl
  | vbool b => rfl
  | vint n => rfl
  | vstr s => rfl
  | vlist xs => rfl

theorem extractMgrFromWA_isOk (kvs : List (List Char × Val)) :
    exOk (extractMgrFromWA (vdict kvs)) = true := by
  unfold extractMgrFromWA
  refine exOk_bind rfl (fun rt0 _ => ?_)
  refine exOk_ite rfl ?_
  refine exOk_bind rfl (fun u _ => ?_)
  cases rt0 with
  | vlist xs =>
      cases xs with
      | nil => rfl
      | cons x ps => exact mgrFromReportsTo_isOk _
  | vnull => exact mgrFromReportsTo_isOk _
  | vbool b => exact mgrFromReportsTo_isOk _
  | vint n => exact mgrFromReportsTo_isOk _
  | vstr s => exact mgrFromReportsTo_isOk _
  | vdict rkvs => exact mgrFromReportsTo_isOk _

theorem mgrIdOfWorker_isOk (l : List (List Char × Val))
    (hwa : wfWAssign (pyOr (lkD l "workAssignments".data) (vlist [])) = true) :
    exOk (mgrIdOfWorker (vdict l)) = true := by
  unfold mgrIdOfWorker
  refine exOk_bind rfl (fun wa0 hwa0 => ?_)
  have hw : wa0 = (lookupStr l "workAssignments".data).getD (vlist []) := by
    simp only [pyGetD] at hwa0
    exact (Except.ok.inj hwa0).symm
  subst hw
  rw [pyOr_getD_list]
  by_cases ht : truthy (pyOr ((lookupStr l "workAssignments".data).getD vnull)
      (vlist [])) = true
  · unfold wfWAssign at hwa
    unfold lkD at hwa
    rw [ht] at hwa
    simp only [Bool.not_true, Bool.false_or] at hwa
    rw [if_pos ht]
    cases hW : pyOr ((lookupStr l "workAssignments".data).getD vnull)
        (vlist []) with
    | vlist xs =>
        rw [hW] at hwa
        cases xs with
        | nil => cases hwa
        | cons x ps =>
            cases x with
            | vdict hkvs =>
                exact exOk_bind rfl (fun first hfirst => by
                  simp only [pyIndex0] at hfirst
                  rw [← Except.ok.inj hfirst]
                  exact extractMgrFromWA_isOk hkvs)
            | vnull => cases hwa
            | vbool b => cases hwa
            | vint n => cases hwa
            | vstr s => cases hwa
            | vlist ys => cases hwa
    | vnull => rw [hW] at hwa; cases hwa
    | vbool b => rw [hW] at hwa; cases hwa
    | vint n => rw [hW] at hwa; cases hwa
    | vstr s => rw [hW] at hwa; cases hwa
    | vdict kv => rw [hW] at hwa; cases hwa
  · rw [if_neg ht]
    rfl

theorem workerFullName_isOk (l : List (List Char × Val))
    (hp : dictOrFalsy (lkD l "person".data) = true)
    (hwp : wfPerson (pyOr (lkD l "person".data) (vdict [])) = true) :
    exOk (workerFullName (vdict l)) = true := by
  obtain ⟨pl, hpl⟩ := pyOr_dict hp
  rw [hpl] at hwp
  unfold lkD at hpl
  unfold wfPerson at hwp
  simp only [Bool.and_eq_true] at hwp
  obtain ⟨⟨⟨⟨⟨⟨hwl, hc1⟩, hc2⟩, hcs⟩, hei⟩, hke1⟩, hke2⟩ := hwp
  have hdl : dictOrFalsy (lkD pl "legalName".data) = true := by
    unfold wfLegal at hwl
    simp only [Bool.and_eq_true] at hwl
    exact hwl.1
  obtain ⟨ll, hll⟩ := pyOr_dict hdl
  unfold lkD at hll
  unfold workerFullName
  refine exOk_bind rfl (fun p0 hp0 => ?_)
  have hp0v : p0 = (lookupStr l "person".data).getD (vdict []) := by
    simp only [pyGetD] at hp0
    exact (Except.ok.inj hp0).symm
  subst hp0v
  rw [pyOr_getD_dict, hpl]
  refine exOk_bind rfl (fun l0 hl0 => ?_)
  have hl0v : l0 = (lookupStr pl "legalName".data).getD (vdict []) := by
    simp only [pyGetD] at hl0
    exact (Except.ok.inj hl0).symm
  subst hl0v
  rw [pyOr_getD_dict, hll]
  refine exOk_bind rfl (fun hasKey hhk => ?_)
  have hhkv : hasKey = (lookupStr ll "formattedName".data).isSome := by
    unfold pyIn at hhk
    exact (Except.ok.inj hhk).symm
  by_cases hkb : hasKey = true
  · rw [if_pos hkb]
    obtain ⟨v0, hv0⟩ := Option.isSome_iff_exists.mp (hhkv ▸ hkb)
    refine exOk_bind (exOk_bind (by simp only [pyItem, hv0]; rfl)
      (fun fn hfn => rfl)) (fun fmt hfmt => ?_)
    cases fmt with
    | some fn => rfl
    | none =>
        exact exOk_bind rfl (fun a _ => exOk_bind rfl (fun b _ => rfl))
  · rw [if_neg hkb]
    refine exOk_bind rfl (fun fmt hfmt => ?_)
    have hfv := pure_eq_ok hfmt
    cases fmt with
    | some fn => cases hfv
    | none =>
        exact exOk_bind rfl (fun a _ => exOk_bind rfl (fun b _ => rfl))

theorem workerWorkEmail_isOk (l : List (List Char × Val))
    (hbc : wfBC (pyOr (lkD l "businessCommunication".data) (vdict [])) = true) :
    exOk (workerWorkEmail (vdict l)) = true := by
  unfold wfBC at hbc
  simp only [Bool.and_eq_true] at hbc
  obtain ⟨bl, hbl⟩ := pyOr_dict (dictOrFalsy_pyOr hbc.1)
  rw [hbl] at hbc
  dsimp only at hbc
  unfold lkD at hbl
  unfold workerWorkEmail
  refine exOk_bind rfl (fun bc0 hbc0 => ?_)
  have hb0 : bc0 = (lookupStr l "businessCommunication".data).getD (vdict []) := by
    simp only [pyGetD] at hbc0
    exact (Except.ok.inj hbc0).symm
  subst hb0
  rw [pyOr_getD_dict, hbl]
  refine exOk_bind rfl (fun e0 he0 => ?_)
  have he0v : e0 = (lookupStr bl "emails".data).getD (vlist []) := by
    simp only [pyGetD] at he0
    exact (Except.ok.inj he0).symm
  subst he0v
  rw [pyOr_getD_list]
  have hhd := hbc.2
  unfold headDictList at hhd
  unfold lkD at hhd
  by_cases ht : truthy (pyOr ((lookupStr bl "emails".data).getD vnull)
      (vlist [])) = true
  · rw [ht] at hhd
    simp only [Bool.not_true, Bool.false_or] at hhd
    rw [if_pos ht]
    cases hE : pyOr ((lookupStr bl "emails".data).getD vnull) (vlist []) with
    | vlist xs =>
        rw [hE] at hhd
        cases xs with
        | nil => cases hhd
        | cons x ps =>
            cases x with
            | vdict ekvs =>
                refine exOk_bind rfl (fun first hfirst => ?_)
                simp only [pyIndex0] at hfirst
                rw [← Except.ok.inj hfirst]
                rfl
            | vnull => cases hhd
            | vbool b => cases hhd
            | vint n => cases hhd
            | vstr s => cases hhd
            | vlist ys => cases hhd
    | vnull => rw [hE] at hhd; cases hhd
    | vbool b => rw [hE] at hhd; cases hhd
    | vint n => rw [hE] at hhd; cases hhd
    | vstr s => rw [hE] at hhd; cases hhd
    | vdict kv => rw [hE] at hhd; cases hhd
  · rw [if_neg ht]
    rfl

theorem dict_of_truthy {v : Val} (hd : dictOrFalsy v = true)
    (ht : truthy v = true) : ∃ dl, v = vdict dl := by
  unfold dictOrFalsy isDictV at hd
  rw [ht] at hd
  simp only [Bool.not_true, Bool.false_or] at hd
  cases v with
  | vdict kvs => exact ⟨kvs, rfl⟩
  | vnull => cases hd
  | vbool b => cases hd
  | vint n => cases hd
  | vstr s => cases hd
  | vlist xs => cases hd

theorem workerPersonalEmail_isOk (l : List (List Char × Val))
    (hp : dictOrFalsy (lkD l "person".data) = true)
    (hwp : wfPerson (pyOr (lkD l "person".data) (vdict [])) = true) :
    exOk (workerPersonalEmail (vdict l)) = true := by
  obtain ⟨pl, hpl⟩ := pyOr_dict hp
  rw [hpl] at hwp
  unfold lkD at hpl
  unfold wfPerson at hwp
  simp only [Bool.and_eq_true] at hwp
  obtain ⟨⟨⟨⟨⟨⟨hwl, hc1⟩, hc2⟩, hcs⟩, hei⟩, hke1⟩, hke2⟩ := hwp
  obtain ⟨cl, hcl⟩ := pyOr_dict hc2
  rw [hcl] at hei
  dsimp only [wfEmailsIndex] at hei
  unfold lkD at hcl
  unfold workerPersonalEmail
  refine exOk_bind rfl (fun p0 hp0 => ?_)
  have hp0v : p0 = (lookupStr l "person".data).getD (vdict []) := by
    simp only [pyGetD] at hp0
    exact (Except.ok.inj hp0).symm
  subst hp0v
  rw [pyOr_getD_dict, hpl]
  refine exOk_bind rfl (fun c0 hc0 => ?_)
  have hc0v : c0 = (lookupStr pl "communication".data).getD (vdict []) := by
    simp only [pyGetD] at hc0
    exact (Except.ok.inj hc0).symm
  subst hc0v
  rw [pyOr_getD_dict, hcl]
  refine exOk_bind rfl (fun e0 he0 => ?_)
  have he0v : e0 = (lookupStr cl "emails".data).getD (vlist []) := by
    simp only [pyGetD] at he0
    exact (Except.ok.inj he0).symm
  subst he0v
  rw [pyOr_getD_list]
  unfold headDictList at hei
  unfold lkD at hei
  by_cases ht : truthy (pyOr ((lookupStr cl "emails".data).getD vnull)
      (vlist [])) = true
  · rw [ht] at hei
    simp only [Bool.not_true, Bool.false_or] at hei
    rw [if_pos ht]
    cases hE : pyOr ((lookupStr cl "emails".data).getD vnull) (vlist []) with
    | vlist xs =>
        rw [hE] at hei
        cases xs with
        | nil => cases hei
        | cons x ps =>
            cases x with
            | vdict ekvs =>
                refine exOk_bind rfl (fun first hfirst => ?_)
                simp only [pyIndex0] at hfirst
                rw [← Except.ok.inj hfirst]
                rfl
            | vnull => cases hei
            | vbool b => cases hei
            | vint n => cases hei
            | vstr s => cases hei
            | vlist ys => cases hei
    | vnull => rw [hE] at hei; cases hei
    | vbool b => rw [hE] at hei; cases hei
    | vint n => rw [hE] at hei; cases hei
    | vstr s => rw [hE] at hei; cases hei
    | vdict kv => rw [hE] at hei; cases hei
  · rw [if_neg ht]
    rfl

theorem extractEmail_isOk (l : List (List Char × Val))
    (hp : dictOrFalsy (lkD l "person".data) = true)
    (hwp : wfPerson (pyOr (lkD l "person".data) (vdict [])) = true)
    (hw1 : keyFieldOk l "workEmail".data = true)
    (hw2 : keyFieldOk l "email".data = true)
    (hw3 : keyFieldOk l "emailAddress".data = true) :
    exOk (extractEmail (vdict l)) = true := by
  obtain ⟨pl, hpl⟩ := pyOr_dict hp
  rw [hpl] at hwp
  unfold lkD at hpl
  unfold wfPerson at hwp
  simp only [Bool.and_eq_true] at hwp
  obtain ⟨⟨⟨⟨⟨⟨hwl, hc1⟩, hc2⟩, hcs⟩, hei⟩, hke1⟩, hke2⟩ := hwp
  have hwkeys : ∀ k ∈ ["workEmail".data, "email".data, "emailAddress".data],
      keyFieldOk l k = true := by
    intro k hk
    simp only [List.mem_cons, List.not_mem_nil, or_false] at hk
    rcases hk with h | h | h <;> subst h <;> assumption
  have hpkeys : ∀ k ∈ ["email".data, "emailAddress".data],
      keyFieldOk pl k = true := by
    intro k hk
    simp only [List.mem_cons, List.not_mem_nil, or_false] at hk
    rcases hk with h | h <;> subst h <;> assumption
  unfold extractEmail
  refine exOk_bind rfl (fun p0 hp0 => ?_)
  have hp0v : p0 = (lookupStr l "person".data).getD (vdict []) := by
    simp only [pyGetD] at hp0
    exact (Except.ok.inj hp0).symm
  subst hp0v
  rw [pyOr_getD_dict, hpl]
  refine exOk_bind rfl (fun c1v hc1v => ?_)
  have hc1vv : c1v = lkD pl "communications".data := by
    unfold lkD
    simp only [pyGet, pyGetD] at hc1v
    exact (Except.ok.inj hc1v).symm
  subst hc1vv
  by_cases ht1 : truthy (lkD pl "communications".data) = true
  · rw [if_pos ht1, ebind_pure]
    obtain ⟨cl2, hcl2⟩ := dict_of_truthy hc1 ht1
    rw [if_pos ht1, hcl2] at hcs
    dsimp only [wfCommScan] at hcs
    rw [hcl2]
    refine exOk_bind rfl (fun e1v he1v => ?_)
    have he1vv : e1v = lkD cl2 "emails".data := by
      unfold lkD
      simp only [pyGet, pyGetD] at he1v
      exact (Except.ok.inj he1v).symm
    subst he1vv
    by_cases htE : truthy (lkD cl2 "emails".data) = true
    · rw [if_pos htE, ebind_pure]
      rw [pyOr_of_truthy _ htE, pyOr_of_truthy _ htE] at hcs
      cases hV : lkD cl2 "emails".data with
      | vdict dl =>
          rw [hV] at hcs
          dsimp only [emailsFieldOk] at hcs
          refine exOk_bind (firstEmailFromList_isOk _ ?_) (fun fl _ => ?_)
          · simp only [List.all_cons, List.all_nil, Bool.and_true, eobjOk]
            exact hcs
          · cases fl with
            | some s => rfl
            | none =>
                refine exOk_bind (fallbackEmail_isOk _ l hwkeys) (fun f1 _ => ?_)
                cases f1 with
                | some s => rfl
                | none =>
                    refine exOk_bind (fallbackEmail_isOk _ pl hpkeys)
                      (fun f2 _ => ?_)
                    cases f2 with
                    | some s => rfl
                    | none => rfl
      | vlist xs =>
          rw [hV] at hcs
          dsimp only [emailsFieldOk] at hcs
          refine exOk_bind (firstEmailFromList_isOk _ hcs) (fun fl _ => ?_)
          cases fl with
          | some s => rfl
          | none =>
              refine exOk_bind (fallbackEmail_isOk _ l hwkeys) (fun f1 _ => ?_)
              cases f1 with
              | some s => rfl
              | none =>
                  refine exOk_bind (fallbackEmail_isOk _ pl hpkeys)
                    (fun f2 _ => ?_)
                  cases f2 with
                  | some s => rfl
                  | none => rfl
      | vnull =>
          refine exOk_bind rfl (fun fl _ => ?_)
          cases fl with
          | some s => rfl
          | none =>
              refine exOk_bind (fallbackEmail_isOk _ l hwkeys) (fun f1 _ => ?_)
              cases f1 with
              | some s => rfl
              | none =>
                  refine exOk_bind (fallbackEmail_isOk _ pl hpkeys)
                    (fun f2 _ => ?_)
                  cases f2 with
                  | some s => rfl
                  | none => rfl
      | vbool b =>
          refine exOk_bind rfl (fun fl _ => ?_)
          cases fl with
          | some s => rfl
          | none =>
              refine exOk_bind (fallbackEmail_isOk _ l hwkeys) (fun f1 _ => ?_)
              cases f1 with
              | some s => rfl
              | none =>
                  refine exOk_bind (fallbackEmail_isOk _ pl hpkeys)
                    (fun f2 _ => ?_)
                  cases f2 with
                  | some s => rfl
                  | none => rfl
      | vint n =>
          refine exOk_bind rfl (fun fl _ => ?_)
          cases fl with
          | some s => rfl
          | none =>
              refine exOk_bind (fallbackEmail_isOk _ l hwkeys) (fun f1 _ => ?_)
              cases f1 with
              | some s => rfl
              | none =>
                  refine exOk_bind (fallbackEmail_isOk _ pl hpkeys)
                    (fun f2 _ => ?_)
                  cases f2 with
                  | some s => rfl
                  | none => rfl
      | vstr s0 =>
          refine exOk_bind rfl (fun fl _ => ?_)
          cases fl with
          | some s => rfl
          | none =>
              refine exOk_bind (fallbackEmail_isOk _ l hwkeys) (fun f1 _ => ?_)
              cases f1 with
              | some s => rfl
              | none =>
                  refine exOk_bind (fallbackEmail_isOk _ pl hpkeys)
                    (fun f2 _ => ?_)
                  cases f2 with
                  | some s => rfl
                  | none => rfl
    · rw [if_neg htE]
      refine exOk_bind rfl (fun e2v he2v => ?_)
      have he2vv : e2v = pyOr ((lookupStr cl2 "email".data).getD vnull)
          (vlist []) := (Except.ok.inj he2v).symm
      subst he2vv
      have hX1 : truthy (lkD cl2 "emails".data) = false := Bool.eq_false_iff.mpr htE
      rw [pyOr_of_falsy _ hX1] at hcs
      unfold lkD at hcs
      cases hV : pyOr ((lookupStr cl2 "email".data).getD vnull) (vlist []) with
      | vdict dl =>
          rw [hV] at hcs
          dsimp only [emailsFieldOk] at hcs
          refine exOk_bind (firstEmailFromList_isOk _ ?_) (fun fl _ => ?_)
          · simp only [List.all_cons, List.all_nil, Bool.and_true, eobjOk]
            exact hcs
          · cases fl with
            | some s => rfl
            | none =>
                refine exOk_bind (fallbackEmail_isOk _ l hwkeys) (fun f1 _ => ?_)
                cases f1 with
                | some s => rfl
                | none =>
                    refine exOk_bind (fallbackEmail_isOk _ pl hpkeys)
                      (fun f2 _ => ?_)
                    cases f2 with
                    | some s => rfl
                    | none => rfl
      | vlist xs =>
          rw [hV] at hcs
          dsimp only [emailsFieldOk] at hcs
          refine exOk_bind (firstEmailFromList_isOk _ hcs) (fun fl _ => ?_)
          cases fl with
          | some s => rfl
          | none =>
              refine exOk_bind (fallbackEmail_isOk _ l hwkeys) (fun f1 _ => ?_)
              cases f1 with
              | some s => rfl
              | none =>
                  refine exOk_bind (fallbackEmail_isOk _ pl hpkeys)
                    (fun f2 _ => ?_)
                  cases f2 with
                  | some s => rfl
                  | none => rfl
      | vnull =>
          refine exOk_bind rfl (fun fl _ => ?_)
          cases fl with
          | some s => rfl
          | none =>
              refine exOk_bind (fallbackEmail_isOk _ l hwkeys) (fun f1 _ => ?_)
              cases f1 with
              | some s => rfl
              | none =>
                  refine exOk_bind (fallbackEmail_isOk _ pl hpkeys)
                    (fun f2 _ => ?_)
                  cases f2 with
                  | some s => rfl
                  | none => rfl
      | vbool b =>
          refine exOk_bind rfl (fun fl _ => ?_)
          cases fl with
          | some s => rfl
          | none =>
              refine exOk_bind (fallbackEmail_isOk _ l hwkeys) (fun f1 _ => ?_)
              cases f1 with
              | some s => rfl
              | none =>
                  refine exOk_bind (fallbackEmail_isOk _ pl hpkeys)
                    (fun f2 _ => ?_)
                  cases f2 with
                  | some s => rfl
                  | none => rfl
      | vint n =>
          refine exOk_bind rfl (fun fl _ => ?_)
          cases fl with
          | some s => rfl
          | none =>
              refine exOk_bind (fallbackEmail_isOk _ l hwkeys) (fun f1 _ => ?_)
              cases f1 with
              | some s => rfl
              | none =>
                  refine exOk_bind (fallbackEmail_isOk _ pl hpkeys)
                    (fun f2 _ => ?_)
                  cases f2 with
                  | some s => rfl
                  | none => rfl
      | vstr s0 =>
          refine exOk_bind rfl (fun fl _ => ?_)
          cases fl with
          | some s => rfl
          | none =>
              refine exOk_bind (fallbackEmail_isOk _ l hwkeys) (fun f1 _ => ?_)
              cases f1 with
              | some s => rfl
              | none =>
                  refine exOk_bind (fallbackEmail_isOk _ pl hpkeys)
                    (fun f2 _ => ?_)
                  cases f2 with
                  | some s => rfl
                  | none => rfl
  · rw [if_neg ht1]
    refine exOk_bind rfl (fun c2v hc2v => ?_)
    have hc2vv : c2v = pyOr ((lookupStr pl "communication".data).getD vnull)
        (vdict []) := (Except.ok.inj hc2v).symm
    subst hc2vv
    obtain ⟨cl2, hcl2⟩ := pyOr_dict hc2
    unfold lkD at hcl2
    rw [if_neg ht1] at hcs
    rw [show (if truthy (lkD pl "communication".data) = true then
        lkD pl "communication".data else vdict []) =
      pyOr (lkD pl "communication".data) (vdict []) from rfl] at hcs
    unfold lkD at hcs
    rw [hcl2] at hcs
    dsimp only [wfCommScan] at hcs
    rw [hcl2]
    refine exOk_bind rfl (fun e1v he1v => ?_)
    have he1vv : e1v = lkD cl2 "emails".data := by
      unfold lkD
      simp only [pyGet, pyGetD] at he1v
      exact (Except.ok.inj he1v).symm
    subst he1vv
    by_cases htE : truthy (lkD cl2 "emails".data) = true
    · rw [if_pos htE, ebind_pure]
      rw [pyOr_of_truthy _ htE, pyOr_of_truthy _ htE] at hcs
      cases hV : lkD cl2 "emails".data with
      | vdict dl =>
          rw [hV] at hcs
          dsimp only [emailsFieldOk] at hcs
          refine exOk_bind (firstEmailFromList_isOk _ ?_) (fun fl _ => ?_)
          · simp only [List.all_cons, List.all_nil, Bool.and_true, eobjOk]
            exact hcs
          · cases fl with
            | some s => rfl
            | none =>
                refine exOk_bind (fallbackEmail_isOk _ l hwkeys) (fun f1 _ => ?_)
                cases f1 with
                | some s => rfl
                | none =>
                    refine exOk_bind (fallbackEmail_isOk _ pl hpkeys)
                      (fun f2 _ => ?_)
                    cases f2 with
                    | some s => rfl
                    | none => rfl
      | vlist xs =>
          rw [hV] at hcs
          dsimp only [emailsFieldOk] at hcs
          refine exOk_bind (firstEmailFromList_isOk _ hcs) (fun fl _ => ?_)
          cases fl with
          | some s => rfl
          | none =>
              refine exOk_bind (fallbackEmail_isOk _ l hwkeys) (fun f1 _ => ?_)
              cases f1 with
              | some s => rfl
              | none =>
                  refine exOk_bind (fallbackEmail_isOk _ pl hpkeys)
                    (fun f2 _ => ?_)
                  cases f2 with
                  | some s => rfl
                  | none => rfl
      | vnull =>
          refine exOk_bind rfl (fun fl _ => ?_)
          cases fl with
          | some s => rfl
          | none =>
              refine exOk_bind (fallbackEmail_isOk _ l hwkeys) (fun f1 _ => ?_)
              cases f1 with
              | some s => rfl
              | none =>
                  refine exOk_bind (fallbackEmail_isOk _ pl hpkeys)
                    (fun f2 _ => ?_)
                  cases f2 with
                  | some s => rfl
                  | none => rfl
      | vbool b =>
          refine exOk_bind rfl (fun fl _ => ?_)
          cases fl with
          | some s => rfl
          | none =>
              refine exOk_bind (fallbackEmail_isOk _ l hwkeys) (fun f1 _ => ?_)
              cases f1 with
              | some s => rfl
              | none =>
                  refine exOk_bind (fallbackEmail_isOk _ pl hpkeys)
                    (fun f2 _ => ?_)
                  cases f2 with
                  | some s => rfl
                  | none => rfl
      | vint n =>
          refine exOk_bind rfl (fun fl _ => ?_)
          cases fl with
          | some s => rfl
          | none =>
              refine exOk_bind (fallbackEmail_isOk _ l hwkeys) (fun f1 _ => ?_)
              cases f1 with
              | some s => rfl
              | none =>
                  refine exOk_bind (fallbackEmail_isOk _ pl hpkeys)
                    (fun f2 _ => ?_)
                  cases f2 with
                  | some s => rfl
                  | none => rfl
      | vstr s0 =>
          refine exOk_bind rfl (fun fl _ => ?_)
          cases fl with
          | some s => rfl
          | none =>
              refine exOk_bind (fallbackEmail_isOk _ l hwkeys) (fun f1 _ => ?_)
              cases f1 with
              | some s => rfl
              | none =>
                  refine exOk_bind (fallbackEmail_isOk _ pl hpkeys)
                    (fun f2 _ => ?_)
                  cases f2 with
                  | some s => rfl
                  | none => rfl
    · rw [if_neg htE]
      refine exOk_bind rfl (fun e2v he2v => ?_)
      have he2vv : e2v = pyOr ((lookupStr cl2 "email".data).getD vnull)
          (vlist []) := (Except.ok.inj he2v).symm
      subst he2vv
      have hX1 : truthy (lkD cl2 "emails".data) = false := Bool.eq_false_iff.mpr htE
      rw [pyOr_of_falsy _ hX1] at hcs
      unfold lkD at hcs
      cases hV : pyOr ((lookupStr cl2 "email".data).getD vnull) (vlist []) with
      | vdict dl =>
          rw [hV] at hcs
          dsimp only [emailsFieldOk] at hcs
          refine exOk_bind (firstEmailFromList_isOk _ ?_) (fun fl _ => ?_)
          · simp only [List.all_cons, List.all_nil, Bool.and_true, eobjOk]
            exact hcs
          · cases fl with
            | some s => rfl
            | none =>
                refine exOk_bind (fallbackEmail_isOk _ l hwkeys) (fun f1 _ => ?_)
                cases f1 with
                | some s => rfl
                | none =>
                    refine exOk_bind (fallbackEmail_isOk _ pl hpkeys)
                      (fun f2 _ => ?_)
                    cases f2 with
                    | some s => rfl
                    | none => rfl
      | vlist xs =>
          rw [hV] at hcs
          dsimp only [emailsFieldOk] at hcs
          refine exOk_bind (firstEmailFromList_isOk _ hcs) (fun fl _ => ?_)
          cases fl with
          | some s => rfl
          | none =>
              refine exOk_bind (fallbackEmail_isOk _ l hwkeys) (fun f1 _ => ?_)
              cases f1 with
              | some s => rfl
              | none =>
                  refine exOk_bind (fallbackEmail_isOk _ pl hpkeys)
                    (fun f2 _ => ?_)
                  cases f2 with
                  | some s => rfl
                  | none => rfl
      | vnull =>
          refine exOk_bind rfl (fun fl _ => ?_)
          cases fl with
          | some s => rfl
          | none =>
              refine exOk_bind (fallbackEmail_isOk _ l hwkeys) (fun f1 _ => ?_)
              cases f1 with
              | some s => rfl
              | none =>
                  refine exOk_bind (fallbackEmail_isOk _ pl hpkeys)
                    (fun f2 _ => ?_)
                  cases f2 with
                  | some s => rfl
                  | none => rfl
      | vbool b =>
          refine exOk_bind rfl (fun fl _ => ?_)
          cases fl with
          | some s => rfl
          | none =>
              refine exOk_bind (fallbackEmail_isOk _ l hwkeys) (fun f1 _ => ?_)
              cases f1 with
              | some s => rfl
              | none =>
                  refine exOk_bind (fallbackEmail_isOk _ pl hpkeys)
                    (fun f2 _ => ?_)
                  cases f2 with
                  | some s => rfl
                  | none => rfl
      | vint n =>
          refine exOk_bind rfl (fun fl _ => ?_)
          cases fl with
          | some s => rfl
          | none =>
              refine exOk_bind (fallbackEmail_isOk _ l hwkeys) (fun f1 _ => ?_)
              cases f1 with
              | some s => rfl
              | none =>
                  refine exOk_bind (fallbackEmail_isOk _ pl hpkeys)
                    (fun f2 _ => ?_)
                  cases f2 with
                  | some s => rfl
                  | none => rfl
      | vstr s0 =>
          refine exOk_bind rfl (fun fl _ => ?_)
          cases fl with
          | some s => rfl
          | none =>
              refine exOk_bind (fallbackEmail_isOk _ l hwkeys) (fun f1 _ => ?_)
              cases f1 with
              | some s => rfl
              | none =>
                  refine exOk_bind (fallbackEmail_isOk _ pl hpkeys)
                    (fun f2 _ => ?_)
                  cases f2 with
                  | some s => rfl
                  | none => rfl

/-- The claim behind C5, as stated, is refuted: `extract_email` propagates
a ValueError raised inside `_clean_email` for a record whose email string
contains `<`, `@` and `>` with no `>` after the `<`. -/
theorem extractors_c5_counterexample :
    extractEmail (vdict [("email".data, vstr ">a<b@c".data)]) =
      .error .valueError := rfl

/-- C5 (amended): email normalization never raises on clean-safe values,
and each field extractor (email, name, manager-reference, candidate-ID,
and the sync-path email/name extractors) returns without raising on every
well-formed record: one whose substructures, where present and truthy,
carry the shapes the code leaves unguarded, and whose email-like strings
are free of the angle-bracket pathology. On other records the extractors
can raise (AttributeError, ValueError, ...), refuting the unconditional
claim. -/
theorem extractors_c5_amended :
    (∀ v : Val, emailValOk v = true → exOk (cleanEmailV v) = true) ∧
    (∀ w : Val, wfRecord w = true →
      exOk (extractEmail w) = true ∧ exOk (getFullName w) = true ∧
      exOk (mgrIdOfWorker w) = true ∧ exOk (candidateIds w) = true ∧
      exOk (workerWorkEmail w) = true ∧ exOk (workerPersonalEmail w) = true ∧
      exOk (workerFullName w) = true) := by
  constructor
  · exact fun v h => cleanEmailV_isOk h
  · intro w hwf
    cases w with
    | vdict l =>
        unfold wfRecord at hwf
        simp only [Bool.and_eq_true] at hwf
        obtain ⟨⟨⟨⟨⟨⟨⟨hwid, hp⟩, hwp⟩, hw1⟩, hw2⟩, hw3⟩, hwa⟩, hbc⟩ := hwf
        exact ⟨extractEmail_isOk l hp hwp hw1 hw2 hw3,
               getFullName_isOk l hp hwp,
               mgrIdOfWorker_isOk l hwa,
               candidateIds_isOk l hwid,
               workerWorkEmail_isOk l hbc,
               workerPersonalEmail_isOk l hp hwp,
               workerFullName_isOk l hp hwp⟩
    | vnull => exact Bool.noConfusion hwf
    | vbool b => exact Bool.noConfusion hwf
    | vint n => exact Bool.noConfusion hwf
    | vstr s => exact Bool.noConfusion hwf
    | vlist xs => exact Bool.noConfusion hwf

/-- A concrete well-formed record for the C5 witness. -/
def wRecC5 : Val :=
  vdict [("person".data, vdict [("legalName".data,
    vdict [("givenName".data, vstr "Jo".data)])]),
   ("email".data, vstr "jo@co.com".data)]

/-- Witness for C5 (amended) at a concrete record. -/
theorem extractors_c5_witness :
    wfRecord wRecC5 = true ∧ exOk (extractEmail wRecC5) = true ∧
    exOk (workerFullName wRecC5) = true ∧
    exOk (cleanEmailV (vstr "jo@co.com".data)) = true := by
  have h := extractors_c5_amended
  exact ⟨by decide, (h.2 wRecC5 (by decide)).1,
    (h.2 wRecC5 (by decide)).2.2.2.2.2.2, h.1 _ (by decide)⟩

/-! ## C6: tree renderer -/

/-- The identifiers carried by a list of render events, in print order. -/
def eventIds (evs : List (Nat × Val × List Char)) : List Val :=
  evs.map (fun e => e.2.1)

/-- The successfully-derived identifiers of a list of records. -/
def okChildIds (ws : List Val) : List Val :=
  ws.filterMap (fun w => (aoidExpr w).toOption)

/-- All child identifiers across all buckets of a mapping, in order. -/
def allChildIds : List (Val × List Val) → List Val
  | [] => []
  | kb :: rest => okChildIds kb.2 ++ allChildIds rest

/-- The bucket rendered for a key (`manager_map.get(k, [])`). -/
def bucketOf (mmap : List (Val × List Val)) (k : Val) : List Val :=
  (lookupBucket mmap k).getD []

/-- `a` is the derived id of some record in the bucket of `k`. -/
def ChildOf (mmap : List (Val × List Val)) (a k : Val) : Prop :=
  ∃ w, w ∈ bucketOf mmap k ∧ aoidExpr w = .ok a

theorem toOption_eq_some {e : Except PyErr Val} {a : Val} :
    e.toOption = some a ↔ e = .ok a := by
  cases e with
  | ok x => simp [Except.toOption]
  | error err => simp [Except.toOption]

theorem okChildIds_cons_ok {w : Val} {ws : List Val} {a : Val}
    (ha : aoidExpr w = .ok a) : okChildIds (w :: ws) = a :: okChildIds ws := by
  unfold okChildIds
  rw [List.filterMap_cons, ha]
  rfl

theorem mem_okChildIds {a : Val} {ws : List Val} :
    a ∈ okChildIds ws ↔ ∃ w ∈ ws, aoidExpr w = .ok a := by
  unfold okChildIds
  rw [List.mem_filterMap]
  constructor
  · rintro ⟨w, hw, hm⟩
    exact ⟨w, hw, toOption_eq_some.mp hm⟩
  · rintro ⟨w, hw, hm⟩
    exact ⟨w, hw, toOption_eq_some.mpr hm⟩

theorem bucketOf_lookup {mmap : List (Val × List Val)} {k : Val} {w : Val}
    (h : w ∈ bucketOf mmap k) :
    ∃ b, lookupBucket mmap k = some b ∧ bucketOf mmap k = b := by
  unfold bucketOf at *
  cases hl : lookupBucket mmap k with
  | none => rw [hl] at h; cases h
  | some b => exact ⟨b, rfl, rfl⟩

theorem bucket_sub_allChildIds :
    ∀ (mmap : List (Val × List Val)) (k : Val) (ws : List Val),
      lookupBucket mmap k = some ws →
      ∀ a ∈ okChildIds ws, a ∈ allChildIds mmap := by
  intro mmap
  induction mmap with
  | nil => intro k ws h; cases h
  | cons kb rest ih =>
      intro k ws h a ha
      obtain ⟨k0, b⟩ := kb
      unfold lookupBucket at h
      by_cases hk : k0 = k
      · rw [if_pos hk] at h
        injection h with h
        subst h
        exact List.mem_append_left _ ha
      · rw [if_neg hk] at h
        exact List.mem_append_right _ (ih k ws h a ha)

theorem bucket_okChildIds_nodup :
    ∀ (mmap : List (Val × List Val)) (k : Val) (ws : List Val),
      (allChildIds mmap).Nodup → lookupBucket mmap k = some ws →
      (okChildIds ws).Nodup := by
  intro mmap
  induction mmap with
  | nil => intro k ws _ h; cases h
  | cons kb rest ih =>
      intro k ws hnd h
      obtain ⟨k0, b⟩ := kb
      unfold lookupBucket at h
      simp only [allChildIds] at hnd
      rw [List.nodup_append] at hnd
      by_cases hk : k0 = k
      · rw [if_pos hk] at h
        injection h with h
        subst h
        exact hnd.1
      · rw [if_neg hk] at h
        exact ih k ws hnd.2.1 h

theorem bucket_disjoint :
    ∀ (mmap : List (Val × List Val)) (k1 k2 : Val) (ws1 ws2 : List Val),
      (allChildIds mmap).Nodup → k1 ≠ k2 →
      lookupBucket mmap k1 = some ws1 → lookupBucket mmap k2 = some ws2 →
      ∀ a, a ∈ okChildIds ws1 → a ∈ okChildIds ws2 → False := by
  intro mmap
  induction mmap with
  | nil => intro k1 k2 ws1 ws2 _ _ h1; cases h1
  | cons kb rest ih =>
      intro k1 k2 ws1 ws2 hnd hne h1 h2 a ha1 ha2
      obtain ⟨k0, b⟩ := kb
      unfold lookupBucket at h1 h2
      simp only [allChildIds] at hnd
      rw [List.nodup_append] at hnd
      by_cases hk1 : k0 = k1
      · rw [if_pos hk1] at h1
        injection h1 with h1
        subst h1
        have hk2 : ¬(k0 = k2) := fun h => hne (hk1 ▸ h ▸ rfl)
        rw [if_neg hk2] at h2
        exact hnd.2.2 ha1 (bucket_sub_allChildIds rest k2 ws2 h2 a ha2)
      · rw [if_neg hk1] at h1
        by_cases hk2 : k0 = k2
        · rw [if_pos hk2] at h2
          injection h2 with h2
          subst h2
          exact hnd.2.2 ha2 (bucket_sub_allChildIds rest k1 ws1 h1 a ha1)
        · rw [if_neg hk2] at h2
          exact ih k1 k2 ws1 ws2 hnd.2.1 hne h1 h2 a ha1 ha2

theorem renderTree_zero (mmap : List (Val × List Val)) (k : Val) (ind : Nat) :
    renderTree 0 mmap k ind = none := by
  rw [renderTree]

theorem renderTree_succ (fuel : Nat) (mmap : List (Val × List Val))
    (mid : Val) (ind : Nat) :
    renderTree (fuel + 1) mmap mid ind =
      renderBucket fuel mmap (bucketOf mmap mid) ind := by
  rw [renderTree]
  rfl

theorem renderBucket_nil (fuel : Nat) (mmap : List (Val × List Val)) (ind : Nat) :
    renderBucket fuel mmap [] ind = some (.ok []) := by
  rw [renderBucket]

theorem renderBucket_cons (fuel : Nat) (mmap : List (Val × List Val))
    (emp : Val) (rest : List Val) (ind : Nat) :
    renderBucket fuel mmap (emp :: rest) ind =
      (match aoidExpr emp with
      | .error e => some (.error e)
      | .ok aoid =>
        match renderLineOf emp with
        | .error e => some (.error e)
        | .ok line =>
          match renderTree fuel mmap aoid (ind + 4) with
          | none => none
          | some (.error e) => some (.error e)
          | some (.ok sub) =>
            match renderBucket fuel mmap rest ind with
            | none => none
            | some (.error e) => some (.error e)
            | some (.ok tailEvs) =>
                some (.ok ((ind, aoid, line) :: (sub ++ tailEvs)))) := by
  rw [renderBucket]

theorem childOf_rank {mmap : List (Val × List Val)} {rank : Val → Nat}
    (HR : ∀ k w a, w ∈ bucketOf mmap k → aoidExpr w = .ok a → rank a < rank k)
    {x p : Val} (h : ChildOf mmap x p) : rank x < rank p := by
  obtain ⟨w, hw, ha⟩ := h
  exact HR p w x hw ha

theorem childOf_unique_parent {mmap : List (Val × List Val)}
    (HU : (allChildIds mmap).Nodup) {x p1 p2 : Val}
    (h1 : ChildOf mmap x p1) (h2 : ChildOf mmap x p2) (hne : p1 ≠ p2) :
    False := by
  obtain ⟨w1, hw1, ha1⟩ := h1
  obtain ⟨w2, hw2, ha2⟩ := h2
  obtain ⟨b1, hl1, hb1⟩ := bucketOf_lookup hw1
  obtain ⟨b2, hl2, hb2⟩ := bucketOf_lookup hw2
  refine bucket_disjoint mmap p1 p2 b1 b2 HU hne hl1 hl2 x ?_ ?_
  · exact mem_okChildIds.mpr ⟨w1, hb1 ▸ hw1, ha1⟩
  · exact mem_okChildIds.mpr ⟨w2, hb2 ▸ hw2, ha2⟩

theorem okChildIds_sublist_nodup {mmap : List (Val × List Val)}
    (HU : (allChildIds mmap).Nodup) {k : Val} {ws : List Val}
    (hsub : ws.Sublist (bucketOf mmap k)) : (okChildIds ws).Nodup := by
  unfold bucketOf at hsub
  cases hl : lookupBucket mmap k with
  | none =>
      rw [hl] at hsub
      simp only [Option.getD_none, List.sublist_nil] at hsub
      subst hsub
      exact List.nodup_nil
  | some b =>
      rw [hl] at hsub
      simp only [Option.getD_some] at hsub
      exact List.Nodup.sublist (List.Sublist.filterMap _ hsub)
        (bucket_okChildIds_nodup mmap k b HU hl)

theorem childOf_of_mem_okChildIds {mmap : List (Val × List Val)} {k : Val}
    {ws : List Val} {x : Val} (hsub : ws.Sublist (bucketOf mmap k))
    (hx : x ∈ okChildIds ws) : ChildOf mmap x k := by
  obtain ⟨w, hw, ha⟩ := mem_okChildIds.mp hx
  exact ⟨w, hsub.subset hw, ha⟩

theorem renderBucket_step (mmap : List (Val × List Val)) (rank : Val → Nat)
    (HR : ∀ k w a, w ∈ bucketOf mmap k → aoidExpr w = .ok a → rank a < rank k)
    (HU : (allChildIds mmap).Nodup) (fuel : Nat)
    (Pf : ∀ k ind evs, renderTree fuel mmap k ind = some (.ok evs) →
      (eventIds evs).Nodup ∧
      (∀ x ∈ eventIds evs, ∃ p, ChildOf mmap x p ∧ (p = k ∨ p ∈ eventIds evs)) ∧
      (∀ x ∈ eventIds evs, rank x < rank k)) :
    ∀ (ws : List Val) (k : Val) (ind : Nat)
      (evs : List (Nat × Val × List Char)),
      ws.Sublist (bucketOf mmap k) →
      renderBucket fuel mmap ws ind = some (.ok evs) →
      (eventIds evs).Nodup ∧
      (∀ x ∈ eventIds evs, (x ∈ okChildIds ws ∧ ChildOf mmap x k) ∨
        ∃ m, m ∈ eventIds evs ∧ ChildOf mmap x m) ∧
      (∀ x ∈ eventIds evs, rank x < rank k) := by
  intro ws
  induction ws with
  | nil =>
      intro k ind evs hsub h
      rw [renderBucket_nil] at h
      have hevs : evs = [] := by
        injection h with h2
        injection h2 with h3
        exact h3.symm
      subst hevs
      refine ⟨List.nodup_nil, ?_, ?_⟩ <;> intro x hx <;> simp [eventIds] at hx
  | cons w rest ihw =>
      intro k ind evs hsub h
      rw [renderBucket_cons] at h
      cases ha : aoidExpr w with
      | error e => rw [ha] at h; simp at h
      | ok a =>
        rw [ha] at h
        dsimp only at h
        cases hl : renderLineOf w with
        | error e => rw [hl] at h; simp at h
        | ok line =>
          rw [hl] at h
          dsimp only at h
          cases hrt : renderTree fuel mmap a (ind + 4) with
          | none => rw [hrt] at h; simp at h
          | some rsub =>
            rw [hrt] at h
            cases rsub with
            | error e => simp at h
            | ok sub =>
              cases hrb : renderBucket fuel mmap rest ind with
              | none => rw [hrb] at h; simp at h
              | some rtail =>
                rw [hrb] at h
                cases rtail with
                | error e => simp at h
                | ok tailEvs =>
                  dsimp only at h
                  have hevs : evs = (ind, a, line) :: (sub ++ tailEvs) := by
                    injection h with h2
                    injection h2 with h3
                    exact h3.symm
                  subst hevs
                  have hw : w ∈ bucketOf mmap k := hsub.subset (List.mem_cons_self w rest)
                  have hrestsub : rest.Sublist (bucketOf mmap k) :=
                    List.sublist_of_cons_sublist hsub
                  have hchild_a : ChildOf mmap a k := ⟨w, hw, ha⟩
                  have hrank_a : rank a < rank k := HR k w a hw ha
                  obtain ⟨Nsub, Csub, Rsub⟩ := Pf a (ind + 4) sub hrt
                  obtain ⟨Ntail, Ctail, Rtail⟩ := ihw k ind tailEvs hrestsub hrb
                  have hids : eventIds ((ind, a, line) :: (sub ++ tailEvs)) =
                      a :: (eventIds sub ++ eventIds tailEvs) := by
                    simp [eventIds]
                  have hoknodup : (okChildIds (w :: rest)).Nodup :=
                    okChildIds_sublist_nodup HU hsub
                  have hokcons : okChildIds (w :: rest) = a :: okChildIds rest :=
                    okChildIds_cons_ok ha
                  have hansub : a ∉ eventIds sub :=
                    fun hin => absurd (Rsub a hin) (lt_irrefl _)
                  have hantail : a ∉ eventIds tailEvs := by
                    intro hin
                    rcases Ctail a hin with ⟨hmem, _⟩ | ⟨m, hm, hchm⟩
                    · rw [hokcons] at hoknodup
                      exact (List.nodup_cons.mp hoknodup).1 hmem
                    · have hmk : m ≠ k := fun he =>
                        absurd (he ▸ Rtail m hm) (lt_irrefl _)
                      exact childOf_unique_parent HU hchm hchild_a hmk
                  have hdisj : ∀ x, x ∈ eventIds sub → x ∈ eventIds tailEvs →
                      False := by
                    have hstep : ∀ d x, rank k - rank x ≤ d →
                        x ∈ eventIds sub → x ∈ eventIds tailEvs → False := by
                      intro d
                      induction d with
                      | zero =>
                          intro x hd h1 _
                          have hx1 : rank x < rank a := Rsub x h1
                          omega
                      | succ d ihd =>
                          intro x hd h1 h2
                          obtain ⟨p1, hcp1, hp1⟩ := Csub x h1
                          have h1r : rank p1 ≤ rank a := by
                            rcases hp1 with he | hmem1
                            · rw [he]
                            · exact le_of_lt (Rsub p1 hmem1)
                          rcases Ctail x h2 with ⟨_, hck⟩ | ⟨m, hm, hcm⟩
                          · have hp1k : p1 ≠ k := fun hek =>
                              absurd (hek ▸ lt_of_le_of_lt h1r hrank_a)
                                (lt_irrefl _)
                            exact childOf_unique_parent HU hcp1 hck hp1k
                          · by_cases hpm : p1 = m
                            · subst hpm
                              rcases hp1 with he | hmem1
                              · exact hantail (he ▸ hm)
                              · have hxr : rank x < rank p1 := childOf_rank HR hcp1
                                exact ihd p1 (by omega) hmem1 hm
                            · exact childOf_unique_parent HU hcp1 hcm hpm
                    intro x h1 h2
                    exact hstep (rank k) x (by omega) h1 h2
                  refine ⟨?_, ?_, ?_⟩
                  · rw [hids, List.nodup_cons, List.nodup_append]
                    refine ⟨?_, Nsub, Ntail, ?_⟩
                    · intro hin
                      rcases List.mem_append.mp hin with h1 | h2
                      · exact hansub h1
                      · exact hantail h2
                    · intro x hx1 hx2
                      exact hdisj x hx1 hx2
                  · rw [hids]
                    intro x hx
                    rcases List.mem_cons.mp hx with he | hin
                    · subst he
                      left
                      refine ⟨?_, hchild_a⟩
                      rw [hokcons]
                      exact List.mem_cons_self _ _
                    · rcases List.mem_append.mp hin with h1 | h2
                      · obtain ⟨p, hcp, hp⟩ := Csub x h1
                        right
                        rcases hp with he | hmem
                        · exact ⟨a, List.mem_cons_self _ _, he ▸ hcp⟩
                        · exact ⟨p, List.mem_cons_of_mem _
                            (List.mem_append_left _ hmem), hcp⟩
                      · rcases Ctail x h2 with ⟨hmem, hck⟩ | ⟨m, hm, hcm⟩
                        · left
                          refine ⟨?_, hck⟩
                          rw [hokcons]
                          exact List.mem_cons_of_mem _ hmem
                        · right
                          exact ⟨m, List.mem_cons_of_mem _
                            (List.mem_append_right _ hm), hcm⟩
                  · rw [hids]
                    intro x hx
                    rcases List.mem_cons.mp hx with he | hin
                    · subst he; exact hrank_a
                    · rcases List.mem_append.mp hin with h1 | h2
                      · exact lt_trans (Rsub x h1) hrank_a
                      · exact Rtail x h2

theorem renderProps (mmap : List (Val × List Val)) (rank : Val → Nat)
    (HR : ∀ k w a, w ∈ bucketOf mmap k → aoidExpr w = .ok a → rank a < rank k)
    (HU : (allChildIds mmap).Nodup) :
    ∀ fuel k ind evs, renderTree fuel mmap k ind = some (.ok evs) →
      (eventIds evs).Nodup ∧
      (∀ x ∈ eventIds evs, ∃ p, ChildOf mmap x p ∧ (p = k ∨ p ∈ eventIds evs)) ∧
      (∀ x ∈ eventIds evs, rank x < rank k) := by
  intro fuel
  induction fuel with
  | zero =>
      intro k ind evs h
      rw [renderTree_zero] at h
      cases h
  | succ f ih =>
      intro k ind evs h
      rw [renderTree_succ] at h
      obtain ⟨hN, hC, hRk⟩ := renderBucket_step mmap rank HR HU f ih
        (bucketOf mmap k) k ind evs (List.Sublist.refl _) h
      refine ⟨hN, ?_, hRk⟩
      intro x hx
      rcases hC x hx with ⟨_, hck⟩ | ⟨m, hm, hcm⟩
      · exact ⟨k, hck, Or.inl rfl⟩
      · exact ⟨m, hcm, Or.inr hm⟩

theorem renderTree_ne_none (mmap : List (Val × List Val)) (rank : Val → Nat)
    (HR : ∀ k w a, w ∈ bucketOf mmap k → aoidExpr w = .ok a → rank a < rank k) :
    ∀ fuel k ind, rank k < fuel → renderTree fuel mmap k ind ≠ none := by
  intro fuel
  induction fuel with
  | zero => intro k ind h; exact absurd h (Nat.not_lt_zero _)
  | succ f ih =>
      intro k ind hk
      rw [renderTree_succ]
      have haux : ∀ ws, ws.Sublist (bucketOf mmap k) → ∀ ind2,
          renderBucket f mmap ws ind2 ≠ none := by
        intro ws
        induction ws with
        | nil => intro _ ind2; rw [renderBucket_nil]; simp
        | cons w rest ihw =>
            intro hsub ind2
            rw [renderBucket_cons]
            cases ha : aoidExpr w with
            | error e => simp
            | ok a =>
              dsimp only
              cases hl : renderLineOf w with
              | error e => simp
              | ok line =>
                dsimp only
                have hsubtree : renderTree f mmap a (ind2 + 4) ≠ none := by
                  apply ih
                  have hw : w ∈ bucketOf mmap k :=
                    hsub.subset (List.mem_cons_self w rest)
                  have := HR k w a hw ha
                  omega
                cases hrt : renderTree f mmap a (ind2 + 4) with
                | none => exact absurd hrt hsubtree
                | some rsub =>
                  cases rsub with
                  | error e => simp
                  | ok sub =>
                    have hrest : renderBucket f mmap rest ind2 ≠ none :=
                      ihw (List.sublist_of_cons_sublist hsub) ind2
                    cases hrb : renderBucket f mmap rest ind2 with
                    | none => exact absurd hrb hrest
                    | some rtail =>
                      cases rtail with
                      | error e => simp
                      | ok tailEvs => simp
      exact haux (bucketOf mmap k) (List.Sublist.refl _) ind

theorem renderTree_indent (mmap : List (Val × List Val)) :
    ∀ fuel k ind evs, renderTree fuel mmap k ind = some (.ok evs) →
      ∀ ev ∈ evs, ∃ j, ev.1 = ind + 4 * j := by
  intro fuel
  induction fuel with
  | zero => intro k ind evs h; rw [renderTree_zero] at h; cases h
  | succ f ih =>
      intro k ind evs h
      rw [renderTree_succ] at h
      have haux : ∀ ws ind2 evs2, renderBucket f mmap ws ind2 = some (.ok evs2) →
          ∀ ev ∈ evs2, ∃ j, ev.1 = ind2 + 4 * j := by
        intro ws
        induction ws with
        | nil =>
            intro ind2 evs2 h2
            rw [renderBucket_nil] at h2
            have hevs : evs2 = [] := by
              injection h2 with h3
              injection h3 with h4
              exact h4.symm
            subst hevs
            intro ev hev
            exact absurd hev (List.not_mem_nil ev)
        | cons w rest ihw =>
            intro ind2 evs2 h2
            rw [renderBucket_cons] at h2
            cases ha : aoidExpr w with
            | error e => rw [ha] at h2; simp at h2
            | ok a =>
              rw [ha] at h2
              dsimp only at h2
              cases hl : renderLineOf w with
              | error e => rw [hl] at h2; simp at h2
              | ok line =>
                rw [hl] at h2
                dsimp only at h2
                cases hrt : renderTree f mmap a (ind2 + 4) with
                | none => rw [hrt] at h2; simp at h2
                | some rsub =>
                  rw [hrt] at h2
                  cases rsub with
                  | error e => simp at h2
                  | ok sub =>
                    cases hrb : renderBucket f mmap rest ind2 with
                    | none => rw [hrb] at h2; simp at h2
                    | some rtail =>
                      rw [hrb] at h2
                      cases rtail with
                      | error e => simp at h2
                      | ok tailEvs =>
                        dsimp only at h2
                        have hevs : evs2 = (ind2, a, line) :: (sub ++ tailEvs) := by
                          injection h2 with h3
                          injection h3 with h4
                          exact h4.symm
                        subst hevs
                        intro ev hev
                        rcases List.mem_cons.mp hev with he | hin
                        · refine ⟨0, ?_⟩
                          rw [he]
                          simp
                        · rcases List.mem_append.mp hin with h1 | h2m
                          · obtain ⟨j, hj⟩ := ih a (ind2 + 4) sub hrt ev h1
                            exact ⟨j + 1, by omega⟩
                          · exact ihw ind2 tailEvs hrb ev h2m
      exact haux (bucketOf mmap k) ind evs h

theorem renderTree_selfcycle (mmap : List (Val × List Val)) (k w : Val)
    (rest : List Val) (line : List Char)
    (hb : bucketOf mmap k = w :: rest) (ha : aoidExpr w = .ok k)
    (hl : renderLineOf w = .ok line) :
    ∀ fuel ind, renderTree fuel mmap k ind = none := by
  intro fuel
  induction fuel with
  | zero => intro ind; exact renderTree_zero mmap k ind
  | succ f ih =>
      intro ind
      rw [renderTree_succ, hb, renderBucket_cons, ha]
      dsimp only
      rw [hl]
      dsimp only
      rw [ih (ind + 4)]

/-- Decidable rank-certificate check: every record of every bucket has a
derived id of strictly smaller rank than its bucket key (acyclicity
witness for the manager graph). -/
def rankCertB (mmap : List (Val × List Val)) (rank : Val → Nat) : Bool :=
  mmap.all (fun kb => kb.2.all (fun w =>
    match aoidExpr w with
    | .ok a => decide (rank a < rank kb.1)
    | .error _ => true))

theorem lookupBucket_mem :
    ∀ (mmap : List (Val × List Val)) (k : Val) (b : List Val),
      lookupBucket mmap k = some b → (k, b) ∈ mmap := by
  intro mmap
  induction mmap with
  | nil => intro k b h; cases h
  | cons kb rest ih =>
      intro k b h
      obtain ⟨k0, ws⟩ := kb
      unfold lookupBucket at h
      by_cases hk : k0 = k
      · rw [if_pos hk] at h
        injection h with h
        subst h
        subst hk
        exact List.mem_cons_self _ _
      · rw [if_neg hk] at h
        exact List.mem_cons_of_mem _ (ih k b h)

theorem hr_of_rankCertB {mmap : List (Val × List Val)} {rank : Val → Nat}
    (hc : rankCertB mmap rank = true) :
    ∀ k w a, w ∈ bucketOf mmap k → aoidExpr w = .ok a → rank a < rank k := by
  intro k w a hw ha
  obtain ⟨b, hl, hb⟩ := bucketOf_lookup hw
  have hmem : (k, b) ∈ mmap := lookupBucket_mem mmap k b hl
  have hall := List.all_eq_true.mp hc (k, b) hmem
  have hwb : w ∈ b := hb ▸ hw
  have hone := List.all_eq_true.mp hall w hwb
  rw [ha] at hone
  exact of_decide_eq_true hone

/-- Projection of a render outcome onto the emitted identifier sequence. -/
def renderIdsOf (o : Option (Except PyErr (List (Nat × Val × List Char)))) :
    Option (List Val) :=
  match o with
  | some (.ok evs) => some (eventIds evs)
  | _ => none

/-- A DAG-shaped hierarchy: two managers sharing the same direct report. -/
def wNodeA : Val := vdict [("associateOID".data, vstr "a".data)]

def wNodeB : Val := vdict [("associateOID".data, vstr "b".data)]

def wNodeC : Val := vdict [("associateOID".data, vstr "c".data)]

def mmapDag : List (Val × List Val) :=
  [(vnull, [wNodeA, wNodeB]),
   (vstr "a".data, [wNodeC]),
   (vstr "b".data, [wNodeC])]

def rankDag : Val → Nat :=
  fun k => if k = vnull then 3 else if k = vstr "c".data then 1 else 2

theorem renderBucket_cons_eval {fuel : Nat} {mmap : List (Val × List Val)}
    {emp : Val} {rest : List Val} {ind : Nat} {a : Val} {line : List Char}
    {sub tailEvs : List (Nat × Val × List Char)}
    (ha : aoidExpr emp = .ok a) (hl : renderLineOf emp = .ok line)
    (hrt : renderTree fuel mmap a (ind + 4) = some (.ok sub))
    (hrb : renderBucket fuel mmap rest ind = some (.ok tailEvs)) :
    renderBucket fuel mmap (emp :: rest) ind =
      some (.ok ((ind, a, line) :: (sub ++ tailEvs))) := by
  rw [renderBucket_cons, ha]
  dsimp only
  rw [hl]
  dsimp only
  rw [hrt, hrb]

/-- The display line shared by all bare test records. -/
def dagLine : List Char := "- Unknown (Unknown)".data

theorem render_dag_eq : renderTree 3 mmapDag vnull 0 =
    some (.ok [(0, vstr "a".data, dagLine), (4, vstr "c".data, dagLine),
               (0, vstr "b".data, dagLine), (4, vstr "c".data, dagLine)]) := by
  have haA : aoidExpr wNodeA = .ok (vstr "a".data) := rfl
  have haB : aoidExpr wNodeB = .ok (vstr "b".data) := rfl
  have haC : aoidExpr wNodeC = .ok (vstr "c".data) := rfl
  have hlA : renderLineOf wNodeA = .ok dagLine := rfl
  have hlB : renderLineOf wNodeB = .ok dagLine := rfl
  have hlC : renderLineOf wNodeC = .ok dagLine := rfl
  have hbN : bucketOf mmapDag vnull = [wNodeA, wNodeB] := rfl
  have hbA : bucketOf mmapDag (vstr "a".data) = [wNodeC] := rfl
  have hbB : bucketOf mmapDag (vstr "b".data) = [wNodeC] := rfl
  have hbC : bucketOf mmapDag (vstr "c".data) = [] := rfl
  have htC8 : renderTree 1 mmapDag (vstr "c".data) 8 = some (.ok []) := by
    rw [renderTree_succ, hbC, renderBucket_nil]
  have hbkC4 : renderBucket 1 mmapDag [wNodeC] 4 =
      some (.ok [(4, vstr "c".data, dagLine)]) :=
    renderBucket_cons_eval haC hlC htC8 (renderBucket_nil 1 mmapDag 4)
  have htA : renderTree 2 mmapDag (vstr "a".data) 4 =
      some (.ok [(4, vstr "c".data, dagLine)]) := by
    rw [renderTree_succ, hbA, hbkC4]
  have htB : renderTree 2 mmapDag (vstr "b".data) 4 =
      some (.ok [(4, vstr "c".data, dagLine)]) := by
    rw [renderTree_succ, hbB, hbkC4]
  have hbkB : renderBucket 2 mmapDag [wNodeB] 0 =
      some (.ok [(0, vstr "b".data, dagLine), (4, vstr "c".data, dagLine)]) :=
    renderBucket_cons_eval haB hlB htB (renderBucket_nil 2 mmapDag 0)
  have hmain : renderBucket 2 mmapDag [wNodeA, wNodeB] 0 =
      some (.ok [(0, vstr "a".data, dagLine), (4, vstr "c".data, dagLine),
                 (0, vstr "b".data, dagLine), (4, vstr "c".data, dagLine)]) :=
    renderBucket_cons_eval haA hlA htA hbkB
  rw [renderTree_succ, hbN, hmain]

/-- C6 counterexample: acyclicity of the manager graph is not enough for
the no-revisit part of the claim. `mmapDag` is acyclic — `rankDag` is a
strictly-decreasing rank certificate over all bucket edges — yet
`print_org_tree` from the root renders the subtree of identifier "c"
twice (once under "a" and once under "b"), because the graph is a DAG
with a shared report, not a tree: the emitted identifier sequence is
a, c, b, c, which has a duplicate. -/
theorem render_c6_counterexample :
    rankCertB mmapDag rankDag = true ∧
    renderTree 3 mmapDag vnull 0 =
      some (.ok [(0, vstr "a".data, dagLine), (4, vstr "c".data, dagLine),
                 (0, vstr "b".data, dagLine), (4, vstr "c".data, dagLine)]) ∧
    ¬ (eventIds [(0, vstr "a".data, dagLine), (4, vstr "c".data, dagLine),
                 (0, vstr "b".data, dagLine), (4, vstr "c".data, dagLine)]).Nodup := by
  refine ⟨by decide, render_dag_eq, by decide⟩

/-- C6 amended: for every hierarchy mapping, (1) if some rank function
strictly decreases along every bucket edge (the manager graph is acyclic)
then the renderer terminates — fuel rank(root)+1 suffices from any root —
and, when additionally no identifier occurs as a child of two different
buckets or twice in one bucket (the graph is a tree, not just a DAG), a
completed render from any root never emits the same identifier twice;
(2) unconditionally, every emitted line of a render started at indentation
`ind` is indented ind + 4·level for some level — one extra level of 4
spaces per recursion step; (3) a record heading its own bucket (its own
manager) with a renderable line makes the recursion unbounded: the
renderer diverges — returns `none` — for every fuel. -/
theorem render_c6_amended :
    ∀ mmap : List (Val × List Val),
      (∀ rank : Val → Nat,
        (∀ k w a, w ∈ bucketOf mmap k → aoidExpr w = .ok a → rank a < rank k) →
        (∀ k ind, renderTree (rank k + 1) mmap k ind ≠ none) ∧
        ((allChildIds mmap).Nodup →
          ∀ fuel k ind evs, renderTree fuel mmap k ind = some (.ok evs) →
            (eventIds evs).Nodup)) ∧
      (∀ fuel k ind evs, renderTree fuel mmap k ind = some (.ok evs) →
        ∀ ev ∈ evs, ∃ j, ev.1 = ind + 4 * j) ∧
      (∀ k w rest line, bucketOf mmap k = w :: rest → aoidExpr w = .ok k →
        renderLineOf w = .ok line →
        ∀ fuel ind, renderTree fuel mmap k ind = none) := by
  intro mmap
  refine ⟨?_, renderTree_indent mmap, ?_⟩
  · intro rank HR
    constructor
    · intro k ind
      exact renderTree_ne_none mmap rank HR (rank k + 1) k ind
        (Nat.lt_succ_self _)
    · intro HU fuel k ind evs h
      exact (renderProps mmap rank HR HU fuel k ind evs h).1
  · intro k w rest line hb ha hl
    exact renderTree_selfcycle mmap k w rest line hb ha hl

/-- A proper two-level tree for the witness. -/
def mmapTreeW : List (Val × List Val) :=
  [(vnull, [wNodeA]), (vstr "a".data, [wNodeB])]

def rankTreeW : Val → Nat :=
  fun k => if k = vnull then 2 else if k = vstr "a".data then 1 else 0

/-- A self-managed record for the divergence part of the witness. -/
def wSelf : Val := vdict [("associateOID".data, vstr "s".data)]

def mmapCyc : List (Val × List Val) := [(vstr "s".data, [wSelf])]

/-- C6 witness: on the concrete tree `mmapTreeW` with rank certificate
`rankTreeW`, fuel rank(root)+1 renders without running out, the completed
render emits duplicate-free identifiers, and each emitted indent is a
multiple of 4; on `mmapCyc`, whose only record is its own manager, the
renderer diverges at every fuel. -/
theorem render_c6_witness :
    renderTree (rankTreeW vnull + 1) mmapTreeW vnull 0 ≠ none ∧
    (eventIds [(0, vstr "a".data, dagLine), (4, vstr "b".data, dagLine)]).Nodup ∧
    (∀ ev ∈ [(0, vstr "a".data, dagLine), (4, vstr "b".data, dagLine)],
      ∃ j, (ev : Nat × Val × List Char).1 = 0 + 4 * j) ∧
    (∀ fuel ind, renderTree fuel mmapCyc (vstr "s".data) ind = none) := by
  have hmain := render_c6_amended mmapTreeW
  have HR := @hr_of_rankCertB mmapTreeW rankTreeW (by decide)
  obtain ⟨h1, h2⟩ := hmain.1 rankTreeW HR
  have haA : aoidExpr wNodeA = .ok (vstr "a".data) := rfl
  have haB : aoidExpr wNodeB = .ok (vstr "b".data) := rfl
  have hlA : renderLineOf wNodeA = .ok dagLine := rfl
  have hlB : renderLineOf wNodeB = .ok dagLine := rfl
  have hbN : bucketOf mmapTreeW vnull = [wNodeA] := rfl
  have hbA : bucketOf mmapTreeW (vstr "a".data) = [wNodeB] := rfl
  have hbB : bucketOf mmapTreeW (vstr "b".data) = [] := rfl
  have htB : renderTree 1 mmapTreeW (vstr "b".data) 8 = some (.ok []) := by
    rw [renderTree_succ, hbB, renderBucket_nil]
  have htA : renderTree 2 mmapTreeW (vstr "a".data) 4 =
      some (.ok [(4, vstr "b".data, dagLine)]) := by
    rw [renderTree_succ, hbA]
    exact renderBucket_cons_eval haB hlB htB (renderBucket_nil 1 mmapTreeW 4)
  have htn : renderTree 3 mmapTreeW vnull 0 =
      some (.ok [(0, vstr "a".data, dagLine), (4, vstr "b".data, dagLine)]) := by
    rw [renderTree_succ, hbN]
    exact renderBucket_cons_eval haA hlA htA (renderBucket_nil 2 mmapTreeW 0)
  refine ⟨h1 vnull 0, h2 (by decide) 3 vnull 0 _ htn, ?_, ?_⟩
  · exact (render_c6_amended mmapTreeW).2.1 3 vnull 0 _ htn
  · have hself : aoidExpr wSelf = .ok (vstr "s".data) := rfl
    have hlS : renderLineOf wSelf = .ok dagLine := rfl
    have hbS : bucketOf mmapCyc (vstr "s".data) = [wSelf] := rfl
    exact (render_c6_amended mmapCyc).2.2 (vstr "s".data) wSelf [] dagLine
      hbS hself hlS
